import Mathlib

/-!
# Verification of the `orderbook` repository (src/main.cpp)

A shallow embedding of the single-file C++ limit order book and proofs of the
specification's claims about it.

Modelling conventions:
* `Price = std::int32_t` is modelled as `Int` (prices are only ever compared,
  never combined arithmetically, so no wrap-around can occur).
* `Quantity = std::uint32_t` is modelled as `Nat`.  The only arithmetic the
  source performs on an order's quantity is the guarded subtraction inside
  `Order::Fill` (guarded by `quantity > remaining`, mirrored here), which can
  never wrap in `uint32_t`; the snapshot aggregation in `GetOrderInfos` adds
  with `uint32_t` wrap-around and is modelled with an explicit `% 2^32`.
* `OrderId = std::uint64_t` is modelled as `Nat` (ids are only compared).
* `std::map<Price, OrderPointers, greater>` / `std::map<Price, OrderPointers>`
  are modelled as association lists sorted strictly descending / ascending by
  price; `std::unordered_map<OrderId, OrderEntry>` as an association list.
* The `OrderEntry` value stored in `orders_` holds a shared pointer to the
  order plus a list iterator.  In this value-semantics embedding the entry
  records the order's immutable attributes (side, price, type) — exactly the
  fields the source ever reads through the index (the mutable remaining
  quantity is never read through `orders_`) — and erasing "at the iterator"
  becomes erasing the first order with the cancelled id inside its level.
* `Order::Fill` throws `std::runtime_error` on over-fill; fallible code is
  modelled with `Except String`.
* The `while (true)` matching loop of `Orderbook::MatchOrders` is modelled by
  the single-step function `matchStep` iterated with explicit fuel
  `bookSize b` (every iteration of the source's inner loop removes at least
  one order, so this fuel is sufficient; `matchLoopFuel_fuel_irrelevant`
  below proves the fuel bound immaterial).  On a state whose best level holds
  an empty order list the C++ loop would spin forever (`while (bids.size() &&
  asks.size())` never runs, nothing changes); such states violate the
  never-empty-level invariant and are unreachable, and the embedding exits
  the loop there.
* Debug `std::cout` / `std::cerr` output in `CancelOrder` is ignored.
-/

/-- `enum class OrderType`. -/
inductive OrderType where
  | GoodTillCancel
  | FillAndKill
deriving DecidableEq, Repr

/-- `enum class Side`. -/
inductive Side where
  | Buy
  | Sell
deriving DecidableEq, Repr

/-- `class Order` (src/main.cpp:57-92).  `GetFilledQuantity` is never called
by the book and is omitted. -/
structure Order where
  orderType : OrderType
  orderId : Nat
  side : Side
  price : Int
  initialQuantity : Nat
  remainingQuantity : Nat
deriving DecidableEq, Repr

namespace Order

/-- `Order::IsFilled` (src/main.cpp:75). -/
def IsFilled (o : Order) : Bool := o.remainingQuantity == 0

/-- `Order::Fill` (src/main.cpp:78-83): throws when asked to fill more than
the remaining quantity, otherwise subtracts. -/
def Fill (o : Order) (quantity : Nat) : Except String Order :=
  if quantity > o.remainingQuantity then
    .error "Cannot fill more than the remaining quantity"
  else
    .ok { o with remainingQuantity := o.remainingQuantity - quantity }

end Order

/-- `class OrderModify` (src/main.cpp:98-122). -/
structure OrderModify where
  orderId : Nat
  side : Side
  price : Int
  quantity : Nat
deriving DecidableEq, Repr

/-- `OrderModify::ToOrderPointer` (src/main.cpp:113-115): build a brand-new
order (so `remainingQuantity = initialQuantity = quantity`). -/
def OrderModify.ToOrderPointer (m : OrderModify) (type : OrderType) : Order :=
  { orderType := type, orderId := m.orderId, side := m.side, price := m.price,
    initialQuantity := m.quantity, remainingQuantity := m.quantity }

/-- `struct TradeInfo` (src/main.cpp:125-129). -/
structure TradeInfo where
  orderId : Nat
  price : Int
  quantity : Nat
deriving DecidableEq, Repr

/-- `class Trade` (src/main.cpp:132-143). -/
structure Trade where
  bidTrade : TradeInfo
  askTrade : TradeInfo
deriving DecidableEq, Repr

/-- `struct LevelInfo` (src/main.cpp:32-35). -/
structure LevelInfo where
  price : Int
  quantity : Nat
deriving DecidableEq, Repr

/-- The immutable attributes of an order that the source ever reads through
an `OrderEntry` of the `orders_` index (src/main.cpp:151-154). -/
structure OrderEntry where
  side : Side
  price : Int
  orderType : OrderType
deriving DecidableEq, Repr

/-- One side of the book: a price-keyed sequence of FIFO order queues,
modelling `std::map<Price, OrderPointers, cmp>` (sortedness is an invariant,
not part of the type). -/
abbrev Levels := List (Int × List Order)

/-- `class Orderbook`'s data members (src/main.cpp:156-158). -/
structure Orderbook where
  bids : Levels
  asks : Levels
  orders : List (Nat × OrderEntry)
deriving DecidableEq, Repr

/-- `orders_.find`-style lookup in the id index. -/
def lookupOrder : List (Nat × OrderEntry) → Nat → Option OrderEntry
  | [], _ => none
  | e :: rest, id => if e.1 = id then some e.2 else lookupOrder rest id

/-- `orders_.contains` (src/main.cpp:235,257,302). -/
def containsId (idx : List (Nat × OrderEntry)) (id : Nat) : Bool :=
  (lookupOrder idx id).isSome

/-- `orders_.erase(id)` (src/main.cpp:200,204,296). -/
def eraseId : List (Nat × OrderEntry) → Nat → List (Nat × OrderEntry)
  | [], _ => []
  | e :: rest, id => if e.1 = id then rest else e :: eraseId rest id

/-- Erase the order a stored list iterator points at, i.e. the (unique, by
the book's id-uniqueness invariant) order with the given id inside a level's
queue (`orders.erase(orderIterator)`, src/main.cpp:280,288). -/
def eraseOrderId : List Order → Nat → List Order
  | [], _ => []
  | o :: rest, id => if o.orderId = id then rest else o :: eraseOrderId rest id

/-- All orders resting in one side's levels, best level first, FIFO order
inside each level. -/
def ordersOf : Levels → List Order
  | [] => []
  | (_, l) :: rest => l ++ ordersOf rest

/-- All orders resting in the book. -/
def allOrders (b : Orderbook) : List Order := ordersOf b.bids ++ ordersOf b.asks

/-- Number of orders resting in the book's two sides (used as matching fuel). -/
def bookSize (b : Orderbook) : Nat := (ordersOf b.bids).length + (ordersOf b.asks).length

/-- Total remaining quantity resting in the book. -/
def totalQty (b : Orderbook) : Nat := ((allOrders b).map Order.remainingQuantity).sum

/-- The FIFO queue at a given price key (empty when the level is absent). -/
def levelOrders : Levels → Int → List Order
  | [], _ => []
  | (p, l) :: rest, q => if p = q then l else levelOrders rest q

/-- `bids_[price].push_back(order)` (src/main.cpp:241-242): find the level
with this key in the descending map, creating it if absent, and append the
order at its tail. -/
def insertBidLevels (o : Order) : Levels → Levels
  | [] => [(o.price, [o])]
  | (p, l) :: rest =>
    if p < o.price then (o.price, [o]) :: (p, l) :: rest
    else if p = o.price then (p, l ++ [o]) :: rest
    else (p, l) :: insertBidLevels o rest

/-- `asks_[price].push_back(order)` (src/main.cpp:245-246), ascending map. -/
def insertAskLevels (o : Order) : Levels → Levels
  | [] => [(o.price, [o])]
  | (p, l) :: rest =>
    if o.price < p then (o.price, [o]) :: (p, l) :: rest
    else if p = o.price then (p, l ++ [o]) :: rest
    else (p, l) :: insertAskLevels o rest

/-- `CancelOrder`'s per-side work (src/main.cpp:277-293): erase the order at
its recorded position from the level keyed `price`, and erase the level if it
becomes empty.  An absent level (`bids_.at(price)` would throw) cannot occur
for well-formed books; the embedding leaves the side unchanged then. -/
def cancelAt : Levels → Int → Nat → Levels
  | [], _, _ => []
  | (p, l) :: rest, price, id =>
    if p = price then
      let l' := eraseOrderId l id
      if l'.isEmpty then rest else (p, l') :: rest
    else (p, l) :: cancelAt rest price id

/-- Re-install a best level after its queue was mutated, erasing it when its
queue became empty (`if (bids.empty()) bids_.erase(bidPrice)`,
src/main.cpp:206-207). -/
def reinsertLevel (p : Int) (l : List Order) (rest : Levels) : Levels :=
  if l.isEmpty then rest else (p, l) :: rest

/-- `Orderbook::CanMatch` (src/main.cpp:161-171). -/
def Orderbook.CanMatch (b : Orderbook) (side : Side) (price : Int) : Bool :=
  match side with
  | .Buy =>
    match b.asks with
    | [] => false
    | (bestAsk, _) :: _ => decide (bestAsk ≤ price)
  | .Sell =>
    match b.bids with
    | [] => false
    | (bestBid, _) :: _ => decide (price ≤ bestBid)

/-- `Orderbook::CancelOrder` (src/main.cpp:255-298).  Unknown id: no-op
(debug print ignored).  Otherwise remove the order from its side's level at
its recorded price, drop the level if emptied, and erase the index entry. -/
def Orderbook.CancelOrder (b : Orderbook) (orderid : Nat) : Orderbook :=
  match lookupOrder b.orders orderid with
  | none => b
  | some e =>
    match e.side with
    | .Buy => { b with bids := cancelAt b.bids e.price orderid,
                       orders := eraseId b.orders orderid }
    | .Sell => { b with asks := cancelAt b.asks e.price orderid,
                        orders := eraseId b.orders orderid }

/-- Result of one iteration of the inner matching loop. -/
inductive StepResult where
  | done
  | failed (e : String)
  | stepped (t : Trade) (b : Orderbook)
deriving DecidableEq, Repr

/-- One iteration of `Orderbook::MatchOrders`' loop (src/main.cpp:178-215):
stop if a side is empty or the best prices do not cross, otherwise match the
head orders of the two best levels for `min` of their remaining quantities,
pop whichever filled completely (deregistering it), erase a best level whose
queue emptied, and record the trade at each order's own id and price.
A non-crossed state whose best level has an empty queue also yields `done`
(the C++ loop would spin forever there; unreachable, see `wfBook`). -/
def matchStep (b : Orderbook) : StepResult :=
  match b.bids, b.asks with
  | (bidPrice, bid :: bidsTail) :: restBids, (askPrice, ask :: asksTail) :: restAsks =>
    if bidPrice < askPrice then .done
    else
      let quantity := min bid.remainingQuantity ask.remainingQuantity
      match bid.Fill quantity, ask.Fill quantity with
      | .ok bid', .ok ask' =>
        let newBids := if bid'.IsFilled then bidsTail else bid' :: bidsTail
        let idx1 := if bid'.IsFilled then eraseId b.orders bid.orderId else b.orders
        let newAsks := if ask'.IsFilled then asksTail else ask' :: asksTail
        let idx2 := if ask'.IsFilled then eraseId idx1 ask.orderId else idx1
        .stepped
          { bidTrade := { orderId := bid.orderId, price := bid.price, quantity := quantity },
            askTrade := { orderId := ask.orderId, price := ask.price, quantity := quantity } }
          { bids := reinsertLevel bidPrice newBids restBids,
            asks := reinsertLevel askPrice newAsks restAsks,
            orders := idx2 }
      | _, _ => .failed "Cannot fill more than the remaining quantity"
  | _, _ => .done

/-- The matching loop, iterated with explicit fuel. -/
def matchLoopFuel : Nat → Orderbook → Except String (List Trade × Orderbook)
  | 0, b => .ok ([], b)
  | n + 1, b =>
    match matchStep b with
    | .done => .ok ([], b)
    | .failed e => .error e
    | .stepped t b' =>
      match matchLoopFuel n b' with
      | .ok (ts, bf) => .ok (t :: ts, bf)
      | .error e => .error e

/-- The post-loop FillAndKill purge (src/main.cpp:217-227): if the head order
of the (new) best bid or best ask level is FillAndKill, cancel it. -/
def purgeFAK (b : Orderbook) : Orderbook :=
  let b1 :=
    match b.bids with
    | (_, o :: _) :: _ =>
      if o.orderType = OrderType.FillAndKill then b.CancelOrder o.orderId else b
    | _ => b
  match b1.asks with
  | (_, o :: _) :: _ =>
    if o.orderType = OrderType.FillAndKill then b1.CancelOrder o.orderId else b1
  | _ => b1

/-- `Orderbook::MatchOrders` (src/main.cpp:174-230): the matching loop
followed by the FillAndKill purge. -/
def Orderbook.MatchOrders (b : Orderbook) : Except String (List Trade × Orderbook) :=
  match matchLoopFuel (bookSize b) b with
  | .ok (ts, b2) => .ok (ts, purgeFAK b2)
  | .error e => .error e

/-- The insertion part of `AddOrder` (src/main.cpp:238-250): append the order
at the tail of its side's level (creating the level if absent) and register
it in the id index. -/
def insertOrder (b : Orderbook) (o : Order) : Orderbook :=
  match o.side with
  | .Buy => { b with bids := insertBidLevels o b.bids,
                     orders := (o.orderId, ⟨o.side, o.price, o.orderType⟩) :: b.orders }
  | .Sell => { b with asks := insertAskLevels o b.asks,
                      orders := (o.orderId, ⟨o.side, o.price, o.orderType⟩) :: b.orders }

/-- `Orderbook::AddOrder` (src/main.cpp:234-252). -/
def Orderbook.AddOrder (b : Orderbook) (o : Order) : Except String (List Trade × Orderbook) :=
  if containsId b.orders o.orderId then .ok ([], b)
  else if o.orderType = OrderType.FillAndKill ∧ b.CanMatch o.side o.price = false then .ok ([], b)
  else (insertOrder b o).MatchOrders

/-- `Orderbook::MatchOrder` — order modification (src/main.cpp:301-306):
unknown id is a no-op; otherwise capture the existing order's type, cancel
it, and submit a brand-new order with the same id, the existing type, and the
caller-supplied side/price/quantity. -/
def Orderbook.MatchOrder (b : Orderbook) (m : OrderModify) : Except String (List Trade × Orderbook) :=
  match lookupOrder b.orders m.orderId with
  | none => .ok ([], b)
  | some e => (b.CancelOrder m.orderId).AddOrder (m.ToOrderPointer e.orderType)

/-- `Orderbook::Size` (src/main.cpp:309). -/
def Orderbook.Size (b : Orderbook) : Nat := b.orders.length

/-- The `CreateLevelInfos` aggregation (src/main.cpp:321-333): `std::accumulate`
over `uint32_t`, hence the `% 2^32`. -/
def levelQty (l : List Order) : Nat :=
  l.foldl (fun s o => (s + o.remainingQuantity) % 4294967296) 0

/-- `Orderbook::GetOrderInfos` (src/main.cpp:312-345). -/
def Orderbook.GetOrderInfos (b : Orderbook) : List LevelInfo × List LevelInfo :=
  (b.bids.map (fun lv => { price := lv.1, quantity := levelQty lv.2 }),
   b.asks.map (fun lv => { price := lv.1, quantity := levelQty lv.2 }))

/-! ## Book invariants

Well-formedness of reachable `Orderbook` states.  `wfBook` holds of the empty
book and is preserved by every public operation (proved below); the claims'
theorems take it as their hypothesis.
-/

/-- Bid levels are keyed by strictly descending price (`std::map` with
`std::greater`): the first level is the best bid. -/
def SortedBids (ls : Levels) : Prop := List.Pairwise (· > ·) (ls.map Prod.fst)

/-- Ask levels are keyed by strictly ascending price: the first level is the
best ask. -/
def SortedAsks (ls : Levels) : Prop := List.Pairwise (· < ·) (ls.map Prod.fst)

/-- No level ever holds an empty order queue. -/
def NoEmptyLevels (ls : Levels) : Prop := ∀ lv ∈ ls, lv.2 ≠ []

/-- Every order rests in the level keyed by its own price, on its own side. -/
def SidePricesOK (s : Side) (ls : Levels) : Prop :=
  ∀ lv ∈ ls, ∀ o ∈ lv.2, o.price = lv.1 ∧ o.side = s

/-- Best bid strictly below best ask (vacuous when a side is empty). -/
def Uncrossed (b : Orderbook) : Prop :=
  ∀ x ∈ b.bids.head?.toList, ∀ y ∈ b.asks.head?.toList, x.1 < y.1

/-- No FillAndKill order rests in the book. -/
def NoFAKBook (b : Orderbook) : Prop :=
  ∀ o ∈ allOrders b, o.orderType ≠ OrderType.FillAndKill

/-- The id index maps every resting order's id to its immutable attributes. -/
def IndexCorrect (b : Orderbook) : Prop :=
  ∀ o ∈ allOrders b, lookupOrder b.orders o.orderId = some ⟨o.side, o.price, o.orderType⟩

/-- Order ids are pairwise distinct across the whole book. -/
def NodupIds (b : Orderbook) : Prop := ((allOrders b).map Order.orderId).Nodup

/-- The structural part of well-formedness, preserved by every iteration of
the matching loop (unlike `Uncrossed`/`NoFAKBook`, which the loop only
restores at exit). -/
def CoreInv (b : Orderbook) : Prop :=
  SortedBids b.bids ∧ SortedAsks b.asks ∧ NoEmptyLevels b.bids ∧ NoEmptyLevels b.asks ∧
  SidePricesOK Side.Buy b.bids ∧ SidePricesOK Side.Sell b.asks ∧ IndexCorrect b ∧ NodupIds b ∧
  (b.orders.map Prod.fst).Nodup

/-- Full well-formedness of a resting (between public calls) book state. -/
def wfBook (b : Orderbook) : Prop := CoreInv b ∧ Uncrossed b ∧ NoFAKBook b

instance (ls : Levels) : Decidable (SortedBids ls) := by unfold SortedBids; infer_instance
instance (ls : Levels) : Decidable (SortedAsks ls) := by unfold SortedAsks; infer_instance
instance (ls : Levels) : Decidable (NoEmptyLevels ls) := by unfold NoEmptyLevels; infer_instance
instance (s : Side) (ls : Levels) : Decidable (SidePricesOK s ls) := by
  unfold SidePricesOK; infer_instance
instance (b : Orderbook) : Decidable (Uncrossed b) := by unfold Uncrossed; infer_instance
instance (b : Orderbook) : Decidable (NoFAKBook b) := by unfold NoFAKBook; infer_instance
instance (b : Orderbook) : Decidable (IndexCorrect b) := by unfold IndexCorrect; infer_instance
instance (b : Orderbook) : Decidable (NodupIds b) := by unfold NodupIds; infer_instance
instance (b : Orderbook) : Decidable (CoreInv b) := by unfold CoreInv; infer_instance
instance (b : Orderbook) : Decidable (wfBook b) := by unfold wfBook; infer_instance

/-- No FillAndKill order in a single queue. -/
def NoFAKIn (l : List Order) : Prop := ∀ o ∈ l, o.orderType ≠ OrderType.FillAndKill

/-- During a matching pass, the only place a FillAndKill order can sit is at
the head of the first (best) level of a side: everything behind the best
head, and every non-best level, is FillAndKill-free. -/
def FAKBestHeadOnly (ls : Levels) : Prop :=
  (∀ lv ∈ ls.head?.toList, NoFAKIn lv.2.tail) ∧ ∀ lv ∈ ls.tail, NoFAKIn lv.2

/-- Both sides only carry a FillAndKill order (if any) at their best head. -/
def FAKInv (b : Orderbook) : Prop := FAKBestHeadOnly b.bids ∧ FAKBestHeadOnly b.asks

/-- Reduce the head order's remaining quantity by `d` (no-op on `[]`). -/
def reduceHead (d : Nat) : List Order → List Order
  | [] => []
  | o :: rest => { o with remainingQuantity := o.remainingQuantity - d } :: rest

/-- FIFO consumption: `post` arises from `pre` by deleting some oldest
(front) orders and partially filling the next one — younger orders are
untouched until every older order at the price is gone. -/
def fifoConsumed (pre post : List Order) : Prop :=
  ∃ k d, post = reduceHead d (pre.drop k)

/-! ## Derived definitions used by the verification -/

/-- The successful result of `Order::Fill`: remaining quantity reduced. -/
def filledOrder (o : Order) (q : Nat) : Order :=
  { o with remainingQuantity := o.remainingQuantity - q }

/-- The `Trade` recorded by one match (src/main.cpp:210-213): each leg
carries its own order's id and price and the executed quantity. -/
def stepTrade (bid ask : Order) (q : Nat) : Trade :=
  { bidTrade := { orderId := bid.orderId, price := bid.price, quantity := q },
    askTrade := { orderId := ask.orderId, price := ask.price, quantity := q } }

/-- Sum of the per-trade executed quantities (one leg per trade). -/
def tradesQtySum (ts : List Trade) : Nat := (ts.map (fun t => t.bidTrade.quantity)).sum

/-- Sum of the quantities of both legs of every trade. -/
def tradesLegsSum (ts : List Trade) : Nat :=
  (ts.map (fun t => t.bidTrade.quantity + t.askTrade.quantity)).sum

/-- Which side's levels: `bids_` or `asks_`. -/
def sideLevels (b : Orderbook) : Side → Levels
  | .Buy => b.bids
  | .Sell => b.asks

/-- The bid half of the purge (src/main.cpp:218-222). -/
def purgeBidSide (b : Orderbook) : Orderbook :=
  match b.bids with
  | (_, o :: _) :: _ =>
    if o.orderType = OrderType.FillAndKill then b.CancelOrder o.orderId else b
  | _ => b

/-- The ask half of the purge (src/main.cpp:223-227). -/
def purgeAskSide (b : Orderbook) : Orderbook :=
  match b.asks with
  | (_, o :: _) :: _ =>
    if o.orderType = OrderType.FillAndKill then b.CancelOrder o.orderId else b
  | _ => b

/-- Remaining quantity the bid half of the purge removes. -/
def purgedBidQty (b : Orderbook) : Nat :=
  match b.bids with
  | (_, o :: _) :: _ =>
    if o.orderType = OrderType.FillAndKill then o.remainingQuantity else 0
  | _ => 0

/-- Remaining quantity the ask half of the purge removes. -/
def purgedAskQty (b : Orderbook) : Nat :=
  match b.asks with
  | (_, o :: _) :: _ =>
    if o.orderType = OrderType.FillAndKill then o.remainingQuantity else 0
  | _ => 0

/-- Total remaining quantity removed by the purge: at most the head order of
each side's best level. -/
def purgedQty (b : Orderbook) : Nat := purgedBidQty b + purgedAskQty b

/-- Decidable equality for `Except` results, so that concrete runs of the
fallible operations can be checked by `decide`. -/
instance {e a : Type} [DecidableEq e] [DecidableEq a] : DecidableEq (Except e a) := fun x y =>
  match x, y with
  | .ok v, .ok w =>
    if h : v = w then .isTrue (by rw [h])
    else .isFalse (by intro hc; cases hc; exact h rfl)
  | .error v, .error w =>
    if h : v = w then .isTrue (by rw [h])
    else .isFalse (by intro hc; cases hc; exact h rfl)
  | .ok _, .error _ => .isFalse (by intro hc; cases hc)
  | .error _, .ok _ => .isFalse (by intro hc; cases hc)

/-! ## Concrete sample data (used to instantiate the theorems) -/

/-- A resting good-till-cancel buy order, 10 units at price 100, id 1. -/
def sampleBid10 : Order :=
  { orderType := .GoodTillCancel, orderId := 1, side := .Buy, price := 100,
    initialQuantity := 10, remainingQuantity := 10 }

/-- The same order after 3 units were filled. -/
def sampleBid7 : Order :=
  { orderType := .GoodTillCancel, orderId := 1, side := .Buy, price := 100,
    initialQuantity := 10, remainingQuantity := 7 }

/-- The same order after 4 units were filled. -/
def sampleBid6 : Order :=
  { orderType := .GoodTillCancel, orderId := 1, side := .Buy, price := 100,
    initialQuantity := 10, remainingQuantity := 6 }

/-- A book holding only `sampleBid10`. -/
def sampleBookBid : Orderbook :=
  { bids := [(100, [sampleBid10])], asks := [],
    orders := [(1, ⟨Side.Buy, 100, OrderType.GoodTillCancel⟩)] }

/-- `sampleBookBid` after 4 units of its bid were consumed. -/
def sampleBookBid6 : Orderbook :=
  { bids := [(100, [sampleBid6])], asks := [],
    orders := [(1, ⟨Side.Buy, 100, OrderType.GoodTillCancel⟩)] }

/-- `sampleBookBid` after 3 units of its bid were consumed. -/
def sampleBookBid7 : Orderbook :=
  { bids := [(100, [sampleBid7])], asks := [],
    orders := [(1, ⟨Side.Buy, 100, OrderType.GoodTillCancel⟩)] }

/-- A good-till-cancel sell of 4 units at 100, id 2 (crosses `sampleBid10`). -/
def sampleSell4 : Order :=
  { orderType := .GoodTillCancel, orderId := 2, side := .Sell, price := 100,
    initialQuantity := 4, remainingQuantity := 4 }

/-- A resting buy of 4 units at 100 (id 1). -/
def sampleBid4 : Order :=
  { orderType := .GoodTillCancel, orderId := 1, side := .Buy, price := 100,
    initialQuantity := 4, remainingQuantity := 4 }

/-- A book holding only `sampleBid4`. -/
def sampleBookBid4 : Orderbook :=
  { bids := [(100, [sampleBid4])], asks := [],
    orders := [(1, ⟨Side.Buy, 100, OrderType.GoodTillCancel⟩)] }

/-- A good-till-cancel sell of 10 units at 100, id 2: fills `sampleBid4` and
rests with 6 units left. -/
def sampleSell10 : Order :=
  { orderType := .GoodTillCancel, orderId := 2, side := .Sell, price := 100,
    initialQuantity := 10, remainingQuantity := 10 }

/-- Book left after submitting `sampleSell10` to `sampleBookBid4`. -/
def sampleBookAsk6 : Orderbook :=
  { bids := [],
    asks := [(100, [{ orderType := .GoodTillCancel, orderId := 2, side := .Sell,
                      price := 100, initialQuantity := 10, remainingQuantity := 6 }])],
    orders := [(2, ⟨Side.Sell, 100, OrderType.GoodTillCancel⟩)] }

/-- A resting buy of 7 units at 90 (id 3). -/
def sampleBid90 : Order :=
  { orderType := .GoodTillCancel, orderId := 3, side := .Buy, price := 90,
    initialQuantity := 7, remainingQuantity := 7 }

/-- A resting sell of 4 units at 100 (id 1). -/
def sampleAsk100 : Order :=
  { orderType := .GoodTillCancel, orderId := 1, side := .Sell, price := 100,
    initialQuantity := 4, remainingQuantity := 4 }

/-- A two-sided, uncrossed book: bid 7@90, ask 4@100. -/
def sampleBookTwo : Orderbook :=
  { bids := [(90, [sampleBid90])], asks := [(100, [sampleAsk100])],
    orders := [(1, ⟨Side.Sell, 100, OrderType.GoodTillCancel⟩),
               (3, ⟨Side.Buy, 90, OrderType.GoodTillCancel⟩)] }

/-- A fill-and-kill buy of 10 units at 100 (id 2): eats `sampleAsk100` and
its 6-unit remainder must be purged. -/
def sampleFAKBuy : Order :=
  { orderType := .FillAndKill, orderId := 2, side := .Buy, price := 100,
    initialQuantity := 10, remainingQuantity := 10 }

/-- Book left after submitting `sampleFAKBuy` to `sampleBookTwo`. -/
def sampleBookBid90 : Orderbook :=
  { bids := [(90, [sampleBid90])], asks := [],
    orders := [(3, ⟨Side.Buy, 90, OrderType.GoodTillCancel⟩)] }

/-- A resting sell of 3 units at 95 (id 2). -/
def sampleAsk95 : Order :=
  { orderType := .GoodTillCancel, orderId := 2, side := .Sell, price := 95,
    initialQuantity := 3, remainingQuantity := 3 }

/-- A crossed book (as arises mid-matching): bid 10@100 vs ask 3@95. -/
def sampleBookCross : Orderbook :=
  { bids := [(100, [sampleBid10])], asks := [(95, [sampleAsk95])],
    orders := [(1, ⟨Side.Buy, 100, OrderType.GoodTillCancel⟩),
               (2, ⟨Side.Sell, 95, OrderType.GoodTillCancel⟩)] }

/-- The trade the match on `sampleBookCross` produces. -/
def sampleTradeCross : Trade :=
  { bidTrade := { orderId := 1, price := 100, quantity := 3 },
    askTrade := { orderId := 2, price := 95, quantity := 3 } }

/-- The trade produced by filling 4 units between ids 1 (bid@100) and 2
(ask@100). -/
def sampleTrade4 : Trade :=
  { bidTrade := { orderId := 1, price := 100, quantity := 4 },
    askTrade := { orderId := 2, price := 100, quantity := 4 } }

/-- The trade produced when `sampleFAKBuy` hits `sampleBookTwo`. -/
def sampleTradeFAK : Trade :=
  { bidTrade := { orderId := 2, price := 100, quantity := 4 },
    askTrade := { orderId := 1, price := 100, quantity := 4 } }

/-- A modification: move order 1 to 5 units at 101. -/
def sampleModify : OrderModify :=
  { orderId := 1, side := .Buy, price := 101, quantity := 5 }

/-- Book after applying `sampleModify` to `sampleBookBid`. -/
def sampleBookMod : Orderbook :=
  { bids := [(101, [{ orderType := .GoodTillCancel, orderId := 1, side := .Buy,
                      price := 101, initialQuantity := 5, remainingQuantity := 5 }])],
    asks := [],
    orders := [(1, ⟨Side.Buy, 101, OrderType.GoodTillCancel⟩)] }

/-- A duplicate-id order: same id as `sampleBid10`. -/
def sampleDup : Order :=
  { orderType := .GoodTillCancel, orderId := 1, side := .Sell, price := 50,
    initialQuantity := 5, remainingQuantity := 5 }

/-- A fill-and-kill sell far above the best bid: no cross available. -/
def sampleFAKFar : Order :=
  { orderType := .FillAndKill, orderId := 5, side := .Sell, price := 200,
    initialQuantity := 5, remainingQuantity := 5 }

/-! ## Basic lemmas about the list-level helpers -/

theorem ordersOf_cons (p : Int) (l : List Order) (rest : Levels) :
    ordersOf ((p, l) :: rest) = l ++ ordersOf rest := rfl

theorem ordersOf_reinsertLevel (p : Int) (l : List Order) (rest : Levels) :
    ordersOf (reinsertLevel p l rest) = l ++ ordersOf rest := by
  unfold reinsertLevel
  cases l with
  | nil => simp [ordersOf]
  | cons o t => simp [ordersOf_cons, List.isEmpty]

theorem reduceHead_zero (l : List Order) : reduceHead 0 l = l := by
  cases l with
  | nil => rfl
  | cons o t => simp [reduceHead]

theorem reduceHead_reduceHead (d d' : Nat) (l : List Order) :
    reduceHead d' (reduceHead d l) = reduceHead (d + d') l := by
  cases l with
  | nil => rfl
  | cons o t => simp [reduceHead, Nat.sub_sub]

theorem reduceHead_drop_succ (d : Nat) (o : Order) (t : List Order) (k : Nat) :
    (reduceHead d (o :: t)).drop (k + 1) = t.drop k := by
  simp [reduceHead]

theorem fifoConsumed_refl (l : List Order) : fifoConsumed l l :=
  ⟨0, 0, by simp [reduceHead_zero]⟩

theorem fifoConsumed_trans {l1 l2 l3 : List Order}
    (h12 : fifoConsumed l1 l2) (h23 : fifoConsumed l2 l3) : fifoConsumed l1 l3 := by
  obtain ⟨k, d, hk⟩ := h12
  obtain ⟨k', d', hk'⟩ := h23
  cases k' with
  | zero =>
    refine ⟨k, d + d', ?_⟩
    simp only [List.drop_zero] at hk'
    rw [hk', hk, reduceHead_reduceHead]
  | succ m =>
    refine ⟨k + (m + 1), d', ?_⟩
    rw [hk', hk]
    cases hdrop : l1.drop k with
    | nil =>
      have hlen : l1.length ≤ k := List.drop_eq_nil_iff.1 hdrop
      have h2 : l1.drop (k + (m + 1)) = [] :=
        List.drop_eq_nil_iff.2 (le_trans hlen (Nat.le_add_right _ _))
      rw [h2]
      simp [reduceHead]
    | cons o t =>
      have h2 : l1.drop (k + (m + 1)) = t.drop m := by
        rw [← List.drop_drop, hdrop, List.drop_succ_cons]
      rw [reduceHead_drop_succ, h2]

theorem fifoConsumed_tail (l : List Order) : fifoConsumed l l.tail :=
  ⟨1, 0, by cases l <;> simp [reduceHead_zero]⟩

theorem fifoConsumed_reduce (d : Nat) (l : List Order) : fifoConsumed l (reduceHead d l) :=
  ⟨0, d, by simp⟩

theorem fifoConsumed_nil (l : List Order) : fifoConsumed l [] :=
  ⟨l.length, 0, by simp [reduceHead]⟩

/-! ## Lemmas about the id index -/

theorem lookupOrder_cons_eq {e : Nat × OrderEntry} {rest : List (Nat × OrderEntry)}
    {id : Nat} (h : e.1 = id) : lookupOrder (e :: rest) id = some e.2 := by
  simp [lookupOrder, h]

theorem lookupOrder_cons_ne {e : Nat × OrderEntry} {rest : List (Nat × OrderEntry)}
    {id : Nat} (h : e.1 ≠ id) : lookupOrder (e :: rest) id = lookupOrder rest id := by
  simp [lookupOrder, h]

theorem lookupOrder_eraseId_ne (idx : List (Nat × OrderEntry)) {id id' : Nat}
    (h : id' ≠ id) : lookupOrder (eraseId idx id) id' = lookupOrder idx id' := by
  induction idx with
  | nil => rfl
  | cons e rest ih =>
    by_cases he : e.1 = id
    · rw [eraseId, if_pos he, lookupOrder_cons_ne]
      rw [he]; exact fun hc => h hc.symm
    · rw [eraseId, if_neg he]
      by_cases he' : e.1 = id'
      · rw [lookupOrder_cons_eq he', lookupOrder_cons_eq he']
      · rw [lookupOrder_cons_ne he', lookupOrder_cons_ne he', ih]

theorem containsId_eq_false_iff (idx : List (Nat × OrderEntry)) (id : Nat) :
    containsId idx id = false ↔ lookupOrder idx id = none := by
  unfold containsId
  cases lookupOrder idx id <;> simp

/-! ## Lemmas about erasing one order from a queue -/

theorem eraseOrderId_head {o : Order} (t : List Order) {id : Nat} (h : o.orderId = id) :
    eraseOrderId (o :: t) id = t := by
  simp [eraseOrderId, h]

theorem eraseOrderId_of_not_mem (l : List Order) (id : Nat)
    (h : ∀ o ∈ l, o.orderId ≠ id) : eraseOrderId l id = l := by
  induction l with
  | nil => rfl
  | cons o t ih =>
    rw [eraseOrderId, if_neg (h o (by simp)), ih]
    exact fun o' ho' => h o' (by simp [ho'])

/-! ## Lemmas about level insertion (`AddOrder`'s `operator[]` + `push_back`) -/

theorem mem_keys_insertBidLevels {o : Order} {ls : Levels} {q : Int}
    (h : q ∈ (insertBidLevels o ls).map Prod.fst) :
    q = o.price ∨ q ∈ ls.map Prod.fst := by
  induction ls with
  | nil => simp [insertBidLevels] at h; exact Or.inl h
  | cons lv rest ih =>
    obtain ⟨p, l⟩ := lv
    rw [insertBidLevels] at h
    by_cases h1 : p < o.price
    · rw [if_pos h1] at h
      simp at h
      rcases h with h | h | h
      · exact Or.inl h
      · exact Or.inr (by simp [h])
      · exact Or.inr (by simp; exact Or.inr h)
    · rw [if_neg h1] at h
      by_cases h2 : p = o.price
      · rw [if_pos h2] at h
        simp at h
        rcases h with h | h
        · exact Or.inr (by simp [h])
        · exact Or.inr (by simp; exact Or.inr h)
      · rw [if_neg h2] at h
        simp at h
        rcases h with h | h
        · exact Or.inr (by simp [h])
        · rcases ih (by simpa using h) with h3 | h3
          · exact Or.inl h3
          · exact Or.inr (by simp; exact Or.inr (by simpa using h3))

theorem mem_keys_insertAskLevels {o : Order} {ls : Levels} {q : Int}
    (h : q ∈ (insertAskLevels o ls).map Prod.fst) :
    q = o.price ∨ q ∈ ls.map Prod.fst := by
  induction ls with
  | nil => simp [insertAskLevels] at h; exact Or.inl h
  | cons lv rest ih =>
    obtain ⟨p, l⟩ := lv
    rw [insertAskLevels] at h
    by_cases h1 : o.price < p
    · rw [if_pos h1] at h
      simp at h
      rcases h with h | h | h
      · exact Or.inl h
      · exact Or.inr (by simp [h])
      · exact Or.inr (by simp; exact Or.inr h)
    · rw [if_neg h1] at h
      by_cases h2 : p = o.price
      · rw [if_pos h2] at h
        simp at h
        rcases h with h | h
        · exact Or.inr (by simp [h])
        · exact Or.inr (by simp; exact Or.inr h)
      · rw [if_neg h2] at h
        simp at h
        rcases h with h | h
        · exact Or.inr (by simp [h])
        · rcases ih (by simpa using h) with h3 | h3
          · exact Or.inl h3
          · exact Or.inr (by simp; exact Or.inr (by simpa using h3))

theorem SortedBids_insertBidLevels {o : Order} {ls : Levels} (h : SortedBids ls) :
    SortedBids (insertBidLevels o ls) := by
  induction ls with
  | nil => simp [insertBidLevels, SortedBids]
  | cons lv rest ih =>
    obtain ⟨p, l⟩ := lv
    unfold SortedBids at h ⊢
    simp only [List.map_cons, List.pairwise_cons] at h
    obtain ⟨hhead, htail⟩ := h
    rw [insertBidLevels]
    by_cases h1 : p < o.price
    · rw [if_pos h1]
      simp only [List.map_cons, List.pairwise_cons]
      refine ⟨?_, hhead, htail⟩
      intro q hq
      simp at hq
      rcases hq with hq | hq
      · omega
      · have := hhead q (by simpa using hq); omega
    · rw [if_neg h1]
      by_cases h2 : p = o.price
      · rw [if_pos h2]
        simp only [List.map_cons, List.pairwise_cons]
        exact ⟨hhead, htail⟩
      · rw [if_neg h2]
        simp only [List.map_cons, List.pairwise_cons]
        refine ⟨?_, ih htail⟩
        intro q hq
        rcases mem_keys_insertBidLevels hq with h3 | h3
        · subst h3; omega
        · exact hhead q h3

theorem SortedAsks_insertAskLevels {o : Order} {ls : Levels} (h : SortedAsks ls) :
    SortedAsks (insertAskLevels o ls) := by
  induction ls with
  | nil => simp [insertAskLevels, SortedAsks]
  | cons lv rest ih =>
    obtain ⟨p, l⟩ := lv
    unfold SortedAsks at h ⊢
    simp only [List.map_cons, List.pairwise_cons] at h
    obtain ⟨hhead, htail⟩ := h
    rw [insertAskLevels]
    by_cases h1 : o.price < p
    · rw [if_pos h1]
      simp only [List.map_cons, List.pairwise_cons]
      refine ⟨?_, hhead, htail⟩
      intro q hq
      simp at hq
      rcases hq with hq | hq
      · omega
      · have := hhead q (by simpa using hq); omega
    · rw [if_neg h1]
      by_cases h2 : p = o.price
      · rw [if_pos h2]
        simp only [List.map_cons, List.pairwise_cons]
        exact ⟨hhead, htail⟩
      · rw [if_neg h2]
        simp only [List.map_cons, List.pairwise_cons]
        refine ⟨?_, ih htail⟩
        intro q hq
        rcases mem_keys_insertAskLevels hq with h3 | h3
        · subst h3; omega
        · exact hhead q h3

theorem ordersOf_insertBidLevels (o : Order) (ls : Levels) :
    ∃ pre post, ordersOf ls = pre ++ post ∧
      ordersOf (insertBidLevels o ls) = pre ++ o :: post := by
  induction ls with
  | nil => exact ⟨[], [], by simp [ordersOf, insertBidLevels]⟩
  | cons lv rest ih =>
    obtain ⟨p, l⟩ := lv
    rw [insertBidLevels]
    by_cases h1 : p < o.price
    · exact ⟨[], l ++ ordersOf rest, by simp [if_pos h1, ordersOf_cons, ordersOf]⟩
    · rw [if_neg h1]
      by_cases h2 : p = o.price
      · exact ⟨l, ordersOf rest, by simp [if_pos h2, ordersOf_cons]⟩
      · obtain ⟨pre, post, hpre, hpost⟩ := ih
        refine ⟨l ++ pre, post, ?_, ?_⟩
        · simp [if_neg h2, ordersOf_cons, hpre]
        · simp [if_neg h2, ordersOf_cons, hpost]

theorem ordersOf_insertAskLevels (o : Order) (ls : Levels) :
    ∃ pre post, ordersOf ls = pre ++ post ∧
      ordersOf (insertAskLevels o ls) = pre ++ o :: post := by
  induction ls with
  | nil => exact ⟨[], [], by simp [ordersOf, insertAskLevels]⟩
  | cons lv rest ih =>
    obtain ⟨p, l⟩ := lv
    rw [insertAskLevels]
    by_cases h1 : o.price < p
    · exact ⟨[], l ++ ordersOf rest, by simp [if_pos h1, ordersOf_cons, ordersOf]⟩
    · rw [if_neg h1]
      by_cases h2 : p = o.price
      · exact ⟨l, ordersOf rest, by simp [if_pos h2, ordersOf_cons]⟩
      · obtain ⟨pre, post, hpre, hpost⟩ := ih
        refine ⟨l ++ pre, post, ?_, ?_⟩
        · simp [if_neg h2, ordersOf_cons, hpre]
        · simp [if_neg h2, ordersOf_cons, hpost]

theorem ordersOf_insertBidLevels_perm (o : Order) (ls : Levels) :
    (ordersOf (insertBidLevels o ls)).Perm (o :: ordersOf ls) := by
  obtain ⟨pre, post, hpre, hpost⟩ := ordersOf_insertBidLevels o ls
  rw [hpre, hpost]
  exact List.perm_middle

theorem ordersOf_insertAskLevels_perm (o : Order) (ls : Levels) :
    (ordersOf (insertAskLevels o ls)).Perm (o :: ordersOf ls) := by
  obtain ⟨pre, post, hpre, hpost⟩ := ordersOf_insertAskLevels o ls
  rw [hpre, hpost]
  exact List.perm_middle

theorem levelOrders_insertBidLevels_self {o : Order} {ls : Levels} (h : SortedBids ls) :
    levelOrders (insertBidLevels o ls) o.price = levelOrders ls o.price ++ [o] := by
  induction ls with
  | nil => simp [insertBidLevels, levelOrders]
  | cons lv rest ih =>
    obtain ⟨p, l⟩ := lv
    unfold SortedBids at h
    simp only [List.map_cons, List.pairwise_cons] at h
    obtain ⟨hhead, htail⟩ := h
    rw [insertBidLevels]
    by_cases h1 : p < o.price
    · rw [if_pos h1]
      have habsent : levelOrders ((p, l) :: rest) o.price = [] := by
        rw [levelOrders, if_neg (by omega)]
        clear ih
        induction rest with
        | nil => rfl
        | cons lv' rest' ih' =>
          obtain ⟨p', l'⟩ := lv'
          have hp' : p > p' := hhead p' (by simp)
          rw [levelOrders, if_neg (by omega)]
          exact ih' (fun q hq => hhead q (by simp at hq ⊢; exact Or.inr hq)) htail.tail
      rw [habsent, levelOrders, if_pos rfl]
      rfl
    · rw [if_neg h1]
      by_cases h2 : p = o.price
      · rw [if_pos h2]
        rw [levelOrders, if_pos h2, levelOrders, if_pos h2]
      · rw [if_neg h2]
        rw [levelOrders, if_neg h2, levelOrders, if_neg h2]
        exact ih htail

theorem levelOrders_insertAskLevels_self {o : Order} {ls : Levels} (h : SortedAsks ls) :
    levelOrders (insertAskLevels o ls) o.price = levelOrders ls o.price ++ [o] := by
  induction ls with
  | nil => simp [insertAskLevels, levelOrders]
  | cons lv rest ih =>
    obtain ⟨p, l⟩ := lv
    unfold SortedAsks at h
    simp only [List.map_cons, List.pairwise_cons] at h
    obtain ⟨hhead, htail⟩ := h
    rw [insertAskLevels]
    by_cases h1 : o.price < p
    · rw [if_pos h1]
      have habsent : levelOrders ((p, l) :: rest) o.price = [] := by
        rw [levelOrders, if_neg (by omega)]
        clear ih
        induction rest with
        | nil => rfl
        | cons lv' rest' ih' =>
          obtain ⟨p', l'⟩ := lv'
          have hp' : p < p' := hhead p' (by simp)
          rw [levelOrders, if_neg (by omega)]
          exact ih' (fun q hq => hhead q (by simp at hq ⊢; exact Or.inr hq)) htail.tail
      rw [habsent, levelOrders, if_pos rfl]
      rfl
    · rw [if_neg h1]
      by_cases h2 : p = o.price
      · rw [if_pos h2]
        rw [levelOrders, if_pos h2, levelOrders, if_pos h2]
      · rw [if_neg h2]
        rw [levelOrders, if_neg h2, levelOrders, if_neg h2]
        exact ih htail

theorem levelOrders_insertBidLevels_other {o : Order} {ls : Levels} {q : Int}
    (h : q ≠ o.price) :
    levelOrders (insertBidLevels o ls) q = levelOrders ls q := by
  induction ls with
  | nil =>
    rw [insertBidLevels]
    simp only [levelOrders]
    rw [if_neg (by omega : ¬ o.price = q)]
  | cons lv rest ih =>
    obtain ⟨p, l⟩ := lv
    rw [insertBidLevels]
    by_cases h1 : p < o.price
    · rw [if_pos h1, levelOrders, if_neg (fun hc => h hc.symm)]
    · rw [if_neg h1]
      by_cases h2 : p = o.price
      · rw [if_pos h2]
        rw [levelOrders, levelOrders]
        by_cases h3 : p = q
        · omega
        · rw [if_neg h3, if_neg h3]
      · rw [if_neg h2, levelOrders, levelOrders]
        by_cases h3 : p = q
        · rw [if_pos h3, if_pos h3]
        · rw [if_neg h3, if_neg h3, ih]

theorem levelOrders_insertAskLevels_other {o : Order} {ls : Levels} {q : Int}
    (h : q ≠ o.price) :
    levelOrders (insertAskLevels o ls) q = levelOrders ls q := by
  induction ls with
  | nil =>
    rw [insertAskLevels]
    simp only [levelOrders]
    rw [if_neg (by omega : ¬ o.price = q)]
  | cons lv rest ih =>
    obtain ⟨p, l⟩ := lv
    rw [insertAskLevels]
    by_cases h1 : o.price < p
    · rw [if_pos h1, levelOrders, if_neg (fun hc => h hc.symm)]
    · rw [if_neg h1]
      by_cases h2 : p = o.price
      · rw [if_pos h2]
        rw [levelOrders, levelOrders]
        by_cases h3 : p = q
        · omega
        · rw [if_neg h3, if_neg h3]
      · rw [if_neg h2, levelOrders, levelOrders]
        by_cases h3 : p = q
        · rw [if_pos h3, if_pos h3]
        · rw [if_neg h3, if_neg h3, ih]

theorem NoEmptyLevels_insertBidLevels {o : Order} {ls : Levels} (h : NoEmptyLevels ls) :
    NoEmptyLevels (insertBidLevels o ls) := by
  induction ls with
  | nil => intro lv hlv; simp [insertBidLevels] at hlv; simp [hlv]
  | cons lv0 rest ih =>
    obtain ⟨p, l⟩ := lv0
    rw [insertBidLevels]
    by_cases h1 : p < o.price
    · rw [if_pos h1]
      intro lv hlv
      simp at hlv
      rcases hlv with hlv | hlv | hlv
      · simp [hlv]
      · exact h _ (by simp [hlv])
      · exact h _ (by simp; exact Or.inr hlv)
    · rw [if_neg h1]
      by_cases h2 : p = o.price
      · rw [if_pos h2]
        intro lv hlv
        simp at hlv
        rcases hlv with hlv | hlv
        · simp [hlv]
        · exact h _ (by simp; exact Or.inr hlv)
      · rw [if_neg h2]
        intro lv hlv
        simp at hlv
        rcases hlv with hlv | hlv
        · exact h _ (by simp [hlv])
        · exact ih (fun lv' hlv' => h lv' (by simp; exact Or.inr hlv')) _ hlv

theorem NoEmptyLevels_insertAskLevels {o : Order} {ls : Levels} (h : NoEmptyLevels ls) :
    NoEmptyLevels (insertAskLevels o ls) := by
  induction ls with
  | nil => intro lv hlv; simp [insertAskLevels] at hlv; simp [hlv]
  | cons lv0 rest ih =>
    obtain ⟨p, l⟩ := lv0
    rw [insertAskLevels]
    by_cases h1 : o.price < p
    · rw [if_pos h1]
      intro lv hlv
      simp at hlv
      rcases hlv with hlv | hlv | hlv
      · simp [hlv]
      · exact h _ (by simp [hlv])
      · exact h _ (by simp; exact Or.inr hlv)
    · rw [if_neg h1]
      by_cases h2 : p = o.price
      · rw [if_pos h2]
        intro lv hlv
        simp at hlv
        rcases hlv with hlv | hlv
        · simp [hlv]
        · exact h _ (by simp; exact Or.inr hlv)
      · rw [if_neg h2]
        intro lv hlv
        simp at hlv
        rcases hlv with hlv | hlv
        · exact h _ (by simp [hlv])
        · exact ih (fun lv' hlv' => h lv' (by simp; exact Or.inr hlv')) _ hlv

theorem SidePricesOK_insertBidLevels {o : Order} {ls : Levels}
    (h : SidePricesOK Side.Buy ls) (hside : o.side = Side.Buy) :
    SidePricesOK Side.Buy (insertBidLevels o ls) := by
  induction ls with
  | nil =>
    intro lv hlv o' ho'
    simp [insertBidLevels] at hlv
    subst hlv
    simp at ho'
    subst ho'
    exact ⟨rfl, hside⟩
  | cons lv0 rest ih =>
    obtain ⟨p, l⟩ := lv0
    rw [insertBidLevels]
    by_cases h1 : p < o.price
    · rw [if_pos h1]
      intro lv hlv o' ho'
      simp at hlv
      rcases hlv with hlv | hlv | hlv
      · subst hlv; simp at ho'; subst ho'; exact ⟨rfl, hside⟩
      · exact h _ (by simp [hlv]) o' (by rw [hlv] at ho' ⊢; exact ho')
      · exact h _ (by simp; exact Or.inr hlv) o' ho'
    · rw [if_neg h1]
      by_cases h2 : p = o.price
      · rw [if_pos h2]
        intro lv hlv o' ho'
        simp at hlv
        rcases hlv with hlv | hlv
        · rw [hlv] at ho' ⊢
          simp at ho'
          rcases ho' with ho' | ho'
          · have := h (p, l) (by simp) o' ho'
            simpa using this
          · subst ho'; simp; exact ⟨h2.symm, hside⟩
        · exact h _ (by simp; exact Or.inr hlv) o' ho'
      · rw [if_neg h2]
        intro lv hlv o' ho'
        simp at hlv
        rcases hlv with hlv | hlv
        · exact h _ (by simp [hlv]) o' (by rw [hlv] at ho' ⊢; exact ho')
        · exact ih (fun lv' hlv' o'' ho'' => h lv' (by simp; exact Or.inr hlv') o'' ho'') _ hlv o' ho'

theorem SidePricesOK_insertAskLevels {o : Order} {ls : Levels}
    (h : SidePricesOK Side.Sell ls) (hside : o.side = Side.Sell) :
    SidePricesOK Side.Sell (insertAskLevels o ls) := by
  induction ls with
  | nil =>
    intro lv hlv o' ho'
    simp [insertAskLevels] at hlv
    subst hlv
    simp at ho'
    subst ho'
    exact ⟨rfl, hside⟩
  | cons lv0 rest ih =>
    obtain ⟨p, l⟩ := lv0
    rw [insertAskLevels]
    by_cases h1 : o.price < p
    · rw [if_pos h1]
      intro lv hlv o' ho'
      simp at hlv
      rcases hlv with hlv | hlv | hlv
      · subst hlv; simp at ho'; subst ho'; exact ⟨rfl, hside⟩
      · exact h _ (by simp [hlv]) o' (by rw [hlv] at ho' ⊢; exact ho')
      · exact h _ (by simp; exact Or.inr hlv) o' ho'
    · rw [if_neg h1]
      by_cases h2 : p = o.price
      · rw [if_pos h2]
        intro lv hlv o' ho'
        simp at hlv
        rcases hlv with hlv | hlv
        · rw [hlv] at ho' ⊢
          simp at ho'
          rcases ho' with ho' | ho'
          · have := h (p, l) (by simp) o' ho'
            simpa using this
          · subst ho'; simp; exact ⟨h2.symm, hside⟩
        · exact h _ (by simp; exact Or.inr hlv) o' ho'
      · rw [if_neg h2]
        intro lv hlv o' ho'
        simp at hlv
        rcases hlv with hlv | hlv
        · exact h _ (by simp [hlv]) o' (by rw [hlv] at ho' ⊢; exact ho')
        · exact ih (fun lv' hlv' o'' ho'' => h lv' (by simp; exact Or.inr hlv') o'' ho'') _ hlv o' ho'

/-- A crossing order inserts as a brand-new best level holding only itself:
its price beats every existing key on its side (descending keys). -/
theorem insertBidLevels_front {o : Order} {ls : Levels}
    (h : ∀ q ∈ ls.map Prod.fst, q < o.price) :
    insertBidLevels o ls = (o.price, [o]) :: ls := by
  cases ls with
  | nil => rfl
  | cons lv rest =>
    obtain ⟨p, l⟩ := lv
    rw [insertBidLevels, if_pos (h p (by simp))]

theorem insertAskLevels_front {o : Order} {ls : Levels}
    (h : ∀ q ∈ ls.map Prod.fst, o.price < q) :
    insertAskLevels o ls = (o.price, [o]) :: ls := by
  cases ls with
  | nil => rfl
  | cons lv rest =>
    obtain ⟨p, l⟩ := lv
    rw [insertAskLevels, if_pos (h p (by simp))]

/-! ## Lemmas about cancellation -/

theorem mem_ordersOf {o : Order} {ls : Levels} :
    o ∈ ordersOf ls ↔ ∃ lv ∈ ls, o ∈ lv.2 := by
  induction ls with
  | nil => simp [ordersOf]
  | cons lv rest ih =>
    obtain ⟨p, l⟩ := lv
    rw [ordersOf_cons]
    simp only [List.mem_append, ih, List.mem_cons]
    constructor
    · rintro (h | ⟨lv', hlv', ho⟩)
      · exact ⟨(p, l), Or.inl rfl, h⟩
      · exact ⟨lv', Or.inr hlv', ho⟩
    · rintro ⟨lv', hlv' | hlv', ho⟩
      · subst hlv'; exact Or.inl ho
      · exact Or.inr ⟨lv', hlv', ho⟩

theorem eraseOrderId_sublist (l : List Order) (id : Nat) :
    (eraseOrderId l id).Sublist l := by
  induction l with
  | nil => simp [eraseOrderId]
  | cons o t ih =>
    rw [eraseOrderId]
    by_cases h : o.orderId = id
    · rw [if_pos h]; exact List.sublist_cons_self o t
    · rw [if_neg h]; exact ih.cons₂ o

theorem eraseOrderId_removes {l : List Order} {o : Order} (hmem : o ∈ l)
    (hnodup : (l.map Order.orderId).Nodup) :
    ∃ l1 l2, l = l1 ++ o :: l2 ∧ eraseOrderId l o.orderId = l1 ++ l2 := by
  induction l with
  | nil => simp at hmem
  | cons a t ih =>
    by_cases ha : a = o
    · subst ha
      exact ⟨[], t, by simp, by simp [eraseOrderId]⟩
    · have hmem' : o ∈ t := by
        rcases List.mem_cons.1 hmem with h | h
        · exact absurd h.symm ha
        · exact h
      have hne : a.orderId ≠ o.orderId := by
        simp only [List.map_cons, List.nodup_cons] at hnodup
        intro hc
        exact hnodup.1 (hc ▸ List.mem_map_of_mem Order.orderId hmem')
      obtain ⟨l1, l2, hl, he⟩ := ih hmem' (by
        simp only [List.map_cons, List.nodup_cons] at hnodup
        exact hnodup.2)
      exact ⟨a :: l1, l2, by simp [hl], by rw [eraseOrderId, if_neg hne, he]; simp⟩

theorem cancelAt_keys_sublist (ls : Levels) (price : Int) (id : Nat) :
    ((cancelAt ls price id).map Prod.fst).Sublist (ls.map Prod.fst) := by
  induction ls with
  | nil => simp [cancelAt]
  | cons lv rest ih =>
    obtain ⟨p, l⟩ := lv
    rw [cancelAt]
    by_cases h : p = price
    · rw [if_pos h]
      by_cases he : (eraseOrderId l id).isEmpty
      · rw [if_pos he]
        simp only [List.map_cons]
        exact List.sublist_cons_self _ _
      · rw [if_neg he]
        simp
    · rw [if_neg h]
      simp only [List.map_cons]
      exact ih.cons₂ p

theorem cancelAt_ordersOf_sublist (ls : Levels) (price : Int) (id : Nat) :
    (ordersOf (cancelAt ls price id)).Sublist (ordersOf ls) := by
  induction ls with
  | nil => simp [cancelAt]
  | cons lv rest ih =>
    obtain ⟨p, l⟩ := lv
    rw [cancelAt]
    by_cases h : p = price
    · rw [if_pos h]
      by_cases he : (eraseOrderId l id).isEmpty
      · rw [if_pos he, ordersOf_cons]
        exact (List.sublist_append_right l (ordersOf rest)).trans
          (List.Sublist.refl _) |>.trans (by simp)
      · rw [if_neg he, ordersOf_cons, ordersOf_cons]
        exact (eraseOrderId_sublist l id).append (List.Sublist.refl _)
    · rw [if_neg h, ordersOf_cons, ordersOf_cons]
      exact (List.Sublist.refl l).append ih

theorem SortedBids_cancelAt {ls : Levels} (price : Int) (id : Nat)
    (h : SortedBids ls) : SortedBids (cancelAt ls price id) :=
  h.sublist (cancelAt_keys_sublist ls price id)

theorem SortedAsks_cancelAt {ls : Levels} (price : Int) (id : Nat)
    (h : SortedAsks ls) : SortedAsks (cancelAt ls price id) :=
  h.sublist (cancelAt_keys_sublist ls price id)

theorem NoEmptyLevels_cancelAt {ls : Levels} (price : Int) (id : Nat)
    (h : NoEmptyLevels ls) : NoEmptyLevels (cancelAt ls price id) := by
  induction ls with
  | nil => simpa [cancelAt] using h
  | cons lv rest ih =>
    obtain ⟨p, l⟩ := lv
    rw [cancelAt]
    by_cases hp : p = price
    · rw [if_pos hp]
      by_cases he : (eraseOrderId l id).isEmpty
      · rw [if_pos he]
        exact fun lv' hlv' => h lv' (by simp; exact Or.inr hlv')
      · rw [if_neg he]
        intro lv' hlv'
        rcases List.mem_cons.1 hlv' with h' | h'
        · subst h'
          simpa [List.isEmpty_iff] using he
        · exact h lv' (by simp; exact Or.inr h')
    · rw [if_neg hp]
      intro lv' hlv'
      rcases List.mem_cons.1 hlv' with h' | h'
      · exact h lv' (by simp [h'])
      · exact ih (fun lv'' hlv'' => h lv'' (by simp; exact Or.inr hlv'')) lv' h'

theorem SidePricesOK_cancelAt {s : Side} {ls : Levels} (price : Int) (id : Nat)
    (h : SidePricesOK s ls) : SidePricesOK s (cancelAt ls price id) := by
  induction ls with
  | nil => simpa [cancelAt] using h
  | cons lv rest ih =>
    obtain ⟨p, l⟩ := lv
    rw [cancelAt]
    by_cases hp : p = price
    · rw [if_pos hp]
      by_cases he : (eraseOrderId l id).isEmpty
      · rw [if_pos he]
        exact fun lv' hlv' => h lv' (by simp; exact Or.inr hlv')
      · rw [if_neg he]
        intro lv' hlv' o' ho'
        rcases List.mem_cons.1 hlv' with h' | h'
        · subst h'
          have ho'' : o' ∈ l := (eraseOrderId_sublist l id).mem ho'
          exact h (p, l) (by simp) o' ho''
        · exact h lv' (by simp; exact Or.inr h') o' ho'
    · rw [if_neg hp]
      intro lv' hlv' o' ho'
      rcases List.mem_cons.1 hlv' with h' | h'
      · exact h lv' (by simp [h']) o' ho'
      · exact ih (fun lv'' hlv'' o'' ho'' => h lv'' (by simp; exact Or.inr hlv'') o'' ho'') lv' h' o' ho'

theorem cancelAt_removes {ls : Levels} {o : Order}
    (hkeys : (ls.map Prod.fst).Nodup)
    (hprices : ∀ lv ∈ ls, ∀ o' ∈ lv.2, o'.price = lv.1)
    (hnodup : ((ordersOf ls).map Order.orderId).Nodup)
    (hmem : o ∈ ordersOf ls) :
    ∃ pre post, ordersOf ls = pre ++ o :: post ∧
      ordersOf (cancelAt ls o.price o.orderId) = pre ++ post := by
  induction ls with
  | nil => simp [ordersOf] at hmem
  | cons lv rest ih =>
    obtain ⟨p, l⟩ := lv
    rw [ordersOf_cons] at hmem hnodup
    by_cases hp : p = o.price
    · have homem : o ∈ l := by
        rcases List.mem_append.1 hmem with h | h
        · exact h
        · exfalso
          obtain ⟨lv', hlv', ho'⟩ := mem_ordersOf.1 h
          have h1 : o.price = lv'.1 := hprices lv' (by simp; exact Or.inr hlv') o ho'
          have h2 : lv'.1 ∈ rest.map Prod.fst := List.mem_map_of_mem Prod.fst hlv'
          simp only [List.map_cons, List.nodup_cons] at hkeys
          exact hkeys.1 (by rw [hp, h1]; exact h2)
      have hlnodup : (l.map Order.orderId).Nodup := by
        rw [List.map_append] at hnodup
        exact (List.Nodup.of_append_left hnodup)
      obtain ⟨l1, l2, hl, he⟩ := eraseOrderId_removes homem hlnodup
      refine ⟨l1, l2 ++ ordersOf rest, by simp [ordersOf_cons, hl], ?_⟩
      rw [cancelAt, if_pos hp]
      have : (if (eraseOrderId l o.orderId).isEmpty then rest
              else (p, eraseOrderId l o.orderId) :: rest) = reinsertLevel p (eraseOrderId l o.orderId) rest := rfl
      rw [this, ordersOf_reinsertLevel, he]
      simp
    · have homem : o ∈ ordersOf rest := by
        rcases List.mem_append.1 hmem with h | h
        · exfalso
          exact hp ((hprices (p, l) (by simp) o h).symm)
        · exact h
      obtain ⟨pre, post, hpre, hpost⟩ := ih
        (by simp only [List.map_cons, List.nodup_cons] at hkeys; exact hkeys.2)
        (fun lv' hlv' o'' ho'' => hprices lv' (by simp; exact Or.inr hlv') o'' ho'')
        (by rw [List.map_append] at hnodup; exact List.Nodup.of_append_right hnodup)
        homem
      refine ⟨l ++ pre, post, by simp [ordersOf_cons, hpre], ?_⟩
      rw [cancelAt, if_neg hp, ordersOf_cons, hpost]
      simp

theorem levelOrders_cancelAt_other {ls : Levels} {price q : Int} {id : Nat}
    (h : q ≠ price) : levelOrders (cancelAt ls price id) q = levelOrders ls q := by
  induction ls with
  | nil => simp [cancelAt]
  | cons lv rest ih =>
    obtain ⟨p, l⟩ := lv
    rw [cancelAt]
    by_cases hp : p = price
    · rw [if_pos hp]
      by_cases he : (eraseOrderId l id).isEmpty
      · rw [if_pos he, levelOrders, if_neg (by omega : ¬ p = q)]
      · rw [if_neg he, levelOrders, if_neg (by omega : ¬ p = q), levelOrders,
          if_neg (by omega : ¬ p = q)]
    · rw [if_neg hp, levelOrders, levelOrders]
      by_cases h3 : p = q
      · rw [if_pos h3, if_pos h3]
      · rw [if_neg h3, if_neg h3, ih]

theorem head_key_le {ls ls' : Levels} (h : SortedBids ls)
    (hsub : (ls'.map Prod.fst).Sublist (ls.map Prod.fst))
    {p' : Int} {l' : List Order} {rest' : Levels} (h' : ls' = (p', l') :: rest')
    {p : Int} {l : List Order} {rest : Levels} (hl : ls = (p, l) :: rest) : p' ≤ p := by
  subst h' hl
  have hmem : p' ∈ (p, l).1 :: rest.map Prod.fst := by
    have := hsub.subset (List.mem_cons_self _ _)
    simpa using this
  unfold SortedBids at h
  simp only [List.map_cons, List.pairwise_cons] at h
  rcases List.mem_cons.1 hmem with hq | hq
  · omega
  · have := h.1 p' hq; omega

theorem head_key_ge {ls ls' : Levels} (h : SortedAsks ls)
    (hsub : (ls'.map Prod.fst).Sublist (ls.map Prod.fst))
    {p' : Int} {l' : List Order} {rest' : Levels} (h' : ls' = (p', l') :: rest')
    {p : Int} {l : List Order} {rest : Levels} (hl : ls = (p, l) :: rest) : p ≤ p' := by
  subst h' hl
  have hmem : p' ∈ (p, l).1 :: rest.map Prod.fst := by
    have := hsub.subset (List.mem_cons_self _ _)
    simpa using this
  unfold SortedAsks at h
  simp only [List.map_cons, List.pairwise_cons] at h
  rcases List.mem_cons.1 hmem with hq | hq
  · omega
  · have := h.1 p' hq; omega

theorem SortedBids_nodup_keys {ls : Levels} (h : SortedBids ls) :
    (ls.map Prod.fst).Nodup :=
  h.imp (fun hab => ne_of_gt hab)

theorem SortedAsks_nodup_keys {ls : Levels} (h : SortedAsks ls) :
    (ls.map Prod.fst).Nodup :=
  h.imp (fun hab => ne_of_lt hab)

/-- Cancelling an id that no order in a side's levels carries leaves the
levels unchanged (provided no level is empty). -/
theorem cancelAt_of_not_mem {ls : Levels} (price : Int) (id : Nat)
    (hno : ∀ o ∈ ordersOf ls, o.orderId ≠ id) (hne : NoEmptyLevels ls) :
    cancelAt ls price id = ls := by
  induction ls with
  | nil => rfl
  | cons lv rest ih =>
    obtain ⟨p, l⟩ := lv
    rw [cancelAt]
    have hnol : ∀ o ∈ l, o.orderId ≠ id := fun o ho =>
      hno o (by rw [ordersOf_cons]; exact List.mem_append_left _ ho)
    by_cases hp : p = price
    · rw [if_pos hp, eraseOrderId_of_not_mem l id hnol]
      have : ¬ l.isEmpty := by
        have := hne (p, l) (by simp)
        simpa [List.isEmpty_iff] using this
      rw [if_neg this]
    · rw [if_neg hp, ih (fun o ho => hno o (by rw [ordersOf_cons]; exact List.mem_append_right _ ho))
        (fun lv' hlv' => hne lv' (by simp; exact Or.inr hlv'))]

/-- `CancelOrder` on an unknown id is a no-op (src/main.cpp:257-260). -/
theorem CancelOrder_unknown {b : Orderbook} {id : Nat}
    (h : lookupOrder b.orders id = none) : b.CancelOrder id = b := by
  unfold Orderbook.CancelOrder
  rw [h]

/-- `CancelOrder` of a resting order removes exactly that order from the
book's queues. -/
theorem CancelOrder_allOrders {b : Orderbook} {oc : Order}
    (hinv : CoreInv b) (hmem : oc ∈ allOrders b) :
    ∃ pre post, allOrders b = pre ++ oc :: post ∧
      allOrders (b.CancelOrder oc.orderId) = pre ++ post := by
  obtain ⟨hsb, hsa, hneb, hnea, hpb, hpa, hidx, hnd, hndk⟩ := hinv
  have hlook : lookupOrder b.orders oc.orderId = some ⟨oc.side, oc.price, oc.orderType⟩ :=
    hidx oc hmem
  unfold Orderbook.CancelOrder
  rw [hlook]
  unfold NodupIds at hnd
  unfold allOrders at hmem hnd ⊢
  rw [List.map_append] at hnd
  cases hside : oc.side with
  | Buy =>
    have hmemb : oc ∈ ordersOf b.bids := by
      rcases List.mem_append.1 hmem with h | h
      · exact h
      · exfalso
        obtain ⟨lv, hlv, ho⟩ := mem_ordersOf.1 h
        have := (hpa lv hlv oc ho).2
        rw [hside] at this
        cases this
    obtain ⟨pre, post, hpre, hpost⟩ := cancelAt_removes (SortedBids_nodup_keys hsb)
      (fun lv hlv o' ho' => (hpb lv hlv o' ho').1) (List.Nodup.of_append_left hnd) hmemb
    exact ⟨pre, post ++ ordersOf b.asks, by simp [hpre], by simp [hpost]⟩
  | Sell =>
    have hmema : oc ∈ ordersOf b.asks := by
      rcases List.mem_append.1 hmem with h | h
      · exfalso
        obtain ⟨lv, hlv, ho⟩ := mem_ordersOf.1 h
        have := (hpb lv hlv oc ho).2
        rw [hside] at this
        cases this
      · exact h
    obtain ⟨pre, post, hpre, hpost⟩ := cancelAt_removes (SortedAsks_nodup_keys hsa)
      (fun lv hlv o' ho' => (hpa lv hlv o' ho').1) (List.Nodup.of_append_right hnd) hmema
    exact ⟨ordersOf b.bids ++ pre, post, by simp [hpre], by simp [hpost]⟩

theorem eraseId_sublist (idx : List (Nat × OrderEntry)) (id : Nat) :
    (eraseId idx id).Sublist idx := by
  induction idx with
  | nil => simp [eraseId]
  | cons e rest ih =>
    rw [eraseId]
    by_cases h : e.1 = id
    · rw [if_pos h]; exact List.sublist_cons_self e rest
    · rw [if_neg h]; exact ih.cons₂ e

theorem lookupOrder_eq_none_iff (idx : List (Nat × OrderEntry)) (id : Nat) :
    lookupOrder idx id = none ↔ ∀ e ∈ idx, e.1 ≠ id := by
  induction idx with
  | nil => simp [lookupOrder]
  | cons e rest ih =>
    rw [lookupOrder]
    by_cases h : e.1 = id
    · simp [if_pos h, h]
    · simp only [if_neg h, ih]
      constructor
      · intro hall e' he'
        rcases List.mem_cons.1 he' with h' | h'
        · subst h'; exact h
        · exact hall e' h'
      · intro hall e' he'
        exact hall e' (by simp; exact Or.inr he')

theorem lookupOrder_eraseId_self {idx : List (Nat × OrderEntry)} {id : Nat}
    (hnd : (idx.map Prod.fst).Nodup) : lookupOrder (eraseId idx id) id = none := by
  induction idx with
  | nil => simp [eraseId, lookupOrder]
  | cons e rest ih =>
    simp only [List.map_cons, List.nodup_cons] at hnd
    rw [eraseId]
    by_cases h : e.1 = id
    · rw [if_pos h]
      rw [lookupOrder_eq_none_iff]
      intro e' he' hc
      have hmem : e'.1 ∈ List.map Prod.fst rest := List.mem_map_of_mem Prod.fst he'
      rw [hc, ← h] at hmem
      exact hnd.1 hmem
    · rw [if_neg h, lookupOrder_cons_ne h]
      exact ih hnd.2

theorem CancelOrder_known_buy {b : Orderbook} {c : Nat} {e : OrderEntry}
    (hlook : lookupOrder b.orders c = some e) (hside : e.side = Side.Buy) :
    b.CancelOrder c = { b with bids := cancelAt b.bids e.price c,
                               orders := eraseId b.orders c } := by
  obtain ⟨es, ep, et⟩ := e
  simp only at hside
  cases hside
  unfold Orderbook.CancelOrder
  rw [hlook]

theorem CancelOrder_known_sell {b : Orderbook} {c : Nat} {e : OrderEntry}
    (hlook : lookupOrder b.orders c = some e) (hside : e.side = Side.Sell) :
    b.CancelOrder c = { b with asks := cancelAt b.asks e.price c,
                               orders := eraseId b.orders c } := by
  obtain ⟨es, ep, et⟩ := e
  simp only at hside
  cases hside
  unfold Orderbook.CancelOrder
  rw [hlook]

theorem allOrders_CancelOrder_sublist (b : Orderbook) (id : Nat) :
    (allOrders (b.CancelOrder id)).Sublist (allOrders b) := by
  cases hlook : lookupOrder b.orders id with
  | none => rw [CancelOrder_unknown hlook]
  | some e =>
    cases hes : e.side with
    | Buy =>
      rw [CancelOrder_known_buy hlook hes]
      unfold allOrders
      exact (cancelAt_ordersOf_sublist b.bids e.price id).append (List.Sublist.refl _)
    | Sell =>
      rw [CancelOrder_known_sell hlook hes]
      unfold allOrders
      exact (List.Sublist.refl _).append (cancelAt_ordersOf_sublist b.asks e.price id)

theorem CancelOrder_CoreInv {b : Orderbook} (c : Nat) (hinv : CoreInv b) :
    CoreInv (b.CancelOrder c) := by
  obtain ⟨hsb, hsa, hneb, hnea, hpb, hpa, hidx, hnd, hndk⟩ := hinv
  have hsub : (allOrders (b.CancelOrder c)).Sublist (allOrders b) :=
    allOrders_CancelOrder_sublist b c
  have hnd' : NodupIds (b.CancelOrder c) := hnd.sublist (hsub.map Order.orderId)
  have hidx' : (b.CancelOrder c).orders = b.orders ∨
      (b.CancelOrder c).orders = eraseId b.orders c := by
    cases hlook : lookupOrder b.orders c with
    | none => rw [CancelOrder_unknown hlook]; exact Or.inl rfl
    | some e =>
      cases hes : e.side with
      | Buy => rw [CancelOrder_known_buy hlook hes]; exact Or.inr rfl
      | Sell => rw [CancelOrder_known_sell hlook hes]; exact Or.inr rfl
  have hcorrect : IndexCorrect (b.CancelOrder c) := by
    intro o' ho'
    have ho'' : o' ∈ allOrders b := hsub.mem ho'
    by_cases hco : o'.orderId = c
    · exfalso
      obtain ⟨pre, post, hpre, hpost⟩ :=
        CancelOrder_allOrders ⟨hsb, hsa, hneb, hnea, hpb, hpa, hidx, hnd, hndk⟩ ho''
      rw [hco] at hpost
      rw [hpost] at ho'
      unfold NodupIds at hnd
      rw [hpre, List.map_append, List.map_cons] at hnd
      have hnotin : o'.orderId ∉ (pre.map Order.orderId) ∧
          o'.orderId ∉ (post.map Order.orderId) := by
        have h1 := List.Nodup.of_append_right hnd
        have h2 := (List.nodup_append.1 hnd).2.2
        simp only [List.nodup_cons] at h1
        exact ⟨fun hc => h2 hc (by simp), h1.1⟩
      rcases List.mem_append.1 ho' with h | h
      · exact hnotin.1 (List.mem_map_of_mem Order.orderId h)
      · exact hnotin.2 (List.mem_map_of_mem Order.orderId h)
    · rcases hidx' with h | h
      · rw [h]; exact hidx o' ho''
      · rw [h, lookupOrder_eraseId_ne _ hco]
        exact hidx o' ho''
  have hndk' : ((b.CancelOrder c).orders.map Prod.fst).Nodup := by
    rcases hidx' with h | h
    · rw [h]; exact hndk
    · rw [h]; exact hndk.sublist ((eraseId_sublist b.orders c).map Prod.fst)
  cases hlook : lookupOrder b.orders c with
  | none =>
    rw [CancelOrder_unknown hlook] at hcorrect hnd' hndk' ⊢
    exact ⟨hsb, hsa, hneb, hnea, hpb, hpa, hcorrect, hnd', hndk'⟩
  | some e =>
    cases hes : e.side with
    | Buy =>
      rw [CancelOrder_known_buy hlook hes] at hcorrect hnd' hndk' ⊢
      exact ⟨SortedBids_cancelAt _ _ hsb, hsa, NoEmptyLevels_cancelAt _ _ hneb, hnea,
        SidePricesOK_cancelAt _ _ hpb, hpa, hcorrect, hnd', hndk'⟩
    | Sell =>
      rw [CancelOrder_known_sell hlook hes] at hcorrect hnd' hndk' ⊢
      exact ⟨hsb, SortedAsks_cancelAt _ _ hsa, hneb, NoEmptyLevels_cancelAt _ _ hnea,
        hpb, SidePricesOK_cancelAt _ _ hpa, hcorrect, hnd', hndk'⟩

theorem CancelOrder_Uncrossed {b : Orderbook} (c : Nat)
    (hinv : CoreInv b) (hu : Uncrossed b) : Uncrossed (b.CancelOrder c) := by
  obtain ⟨hsb, hsa, _, _, _, _, _, _, _⟩ := hinv
  cases hlook : lookupOrder b.orders c with
  | none => rw [CancelOrder_unknown hlook]; exact hu
  | some e =>
    cases hes : e.side with
    | Buy =>
      rw [CancelOrder_known_buy hlook hes]
      intro x hx y hy
      simp only at hx hy
      cases hbid : cancelAt b.bids e.price c with
      | nil => rw [hbid] at hx; simp at hx
      | cons lv rest =>
        obtain ⟨p', l'⟩ := lv
        rw [hbid] at hx
        simp at hx
        cases hbids : b.bids with
        | nil =>
          exfalso
          have hsubk := cancelAt_keys_sublist b.bids e.price c
          rw [hbid, hbids] at hsubk
          simp at hsubk
        | cons lv0 rest0 =>
          obtain ⟨p0, l0⟩ := lv0
          have hle : p' ≤ p0 := head_key_le hsb
            (cancelAt_keys_sublist b.bids e.price c) hbid hbids
          have hu0 := hu ⟨p0, l0⟩ (by rw [hbids]; simp) y hy
          subst hx
          simp only at hu0 ⊢
          omega
    | Sell =>
      rw [CancelOrder_known_sell hlook hes]
      intro x hx y hy
      simp only at hx hy
      cases hask : cancelAt b.asks e.price c with
      | nil => rw [hask] at hy; simp at hy
      | cons lv rest =>
        obtain ⟨p', l'⟩ := lv
        rw [hask] at hy
        simp at hy
        cases hasks : b.asks with
        | nil =>
          exfalso
          have hsubk := cancelAt_keys_sublist b.asks e.price c
          rw [hask, hasks] at hsubk
          simp at hsubk
        | cons lv0 rest0 =>
          obtain ⟨p0, l0⟩ := lv0
          have hge : p0 ≤ p' := head_key_ge hsa
            (cancelAt_keys_sublist b.asks e.price c) hask hasks
          have hu0 := hu x hx ⟨p0, l0⟩ (by rw [hasks]; simp)
          subst hy
          simp only at hu0 ⊢
          omega

theorem CancelOrder_NoFAK {b : Orderbook} (c : Nat) (h : NoFAKBook b) :
    NoFAKBook (b.CancelOrder c) :=
  fun o ho => h o ((allOrders_CancelOrder_sublist b c).mem ho)

theorem CancelOrder_wf {b : Orderbook} (c : Nat) (h : wfBook b) :
    wfBook (b.CancelOrder c) :=
  ⟨CancelOrder_CoreInv c h.1, CancelOrder_Uncrossed c h.1 h.2.1, CancelOrder_NoFAK c h.2.2⟩

/-! ## Lemmas about one matching iteration -/

theorem Fill_ok_of_le {o : Order} {q : Nat} (h : q ≤ o.remainingQuantity) :
    o.Fill q = .ok (filledOrder o q) := by
  unfold Order.Fill filledOrder
  rw [if_neg (Nat.not_lt.2 h)]

theorem matchStep_eq_stepped {b : Orderbook} {bp ap : Int} {bid ask : Order}
    {bl al : List Order} {rb ra : Levels}
    (hb : b.bids = (bp, bid :: bl) :: rb) (ha : b.asks = (ap, ask :: al) :: ra)
    (hcross : ¬ bp < ap) {q : Nat}
    (hq : q = min bid.remainingQuantity ask.remainingQuantity) :
    matchStep b = .stepped (stepTrade bid ask q)
      { bids := reinsertLevel bp
          (if (filledOrder bid q).IsFilled then bl else filledOrder bid q :: bl) rb,
        asks := reinsertLevel ap
          (if (filledOrder ask q).IsFilled then al else filledOrder ask q :: al) ra,
        orders := if (filledOrder ask q).IsFilled
          then eraseId (if (filledOrder bid q).IsFilled
                        then eraseId b.orders bid.orderId else b.orders) ask.orderId
          else if (filledOrder bid q).IsFilled
               then eraseId b.orders bid.orderId else b.orders } := by
  have hfb : bid.Fill (min bid.remainingQuantity ask.remainingQuantity) =
      .ok (filledOrder bid (min bid.remainingQuantity ask.remainingQuantity)) :=
    Fill_ok_of_le (Nat.min_le_left _ _)
  have hfa : ask.Fill (min bid.remainingQuantity ask.remainingQuantity) =
      .ok (filledOrder ask (min bid.remainingQuantity ask.remainingQuantity)) :=
    Fill_ok_of_le (Nat.min_le_right _ _)
  subst hq
  unfold matchStep
  rw [hb, ha]
  simp only [if_neg hcross, hfb, hfa]
  rfl

theorem matchStep_stepped_inv {b : Orderbook} {t : Trade} {b' : Orderbook}
    (h : matchStep b = .stepped t b') :
    ∃ bp bid bl rb ap ask al ra q,
      b.bids = (bp, bid :: bl) :: rb ∧ b.asks = (ap, ask :: al) :: ra ∧ ¬ bp < ap ∧
      q = min bid.remainingQuantity ask.remainingQuantity ∧
      t = stepTrade bid ask q ∧
      b' = { bids := reinsertLevel bp
               (if (filledOrder bid q).IsFilled then bl else filledOrder bid q :: bl) rb,
             asks := reinsertLevel ap
               (if (filledOrder ask q).IsFilled then al else filledOrder ask q :: al) ra,
             orders := if (filledOrder ask q).IsFilled
               then eraseId (if (filledOrder bid q).IsFilled
                             then eraseId b.orders bid.orderId else b.orders) ask.orderId
               else if (filledOrder bid q).IsFilled
                    then eraseId b.orders bid.orderId else b.orders } := by
  cases hbids : b.bids with
  | nil =>
    unfold matchStep at h
    rw [hbids] at h
    simp at h
  | cons blv rb =>
    obtain ⟨bp, bl0⟩ := blv
    cases hbl0 : bl0 with
    | nil =>
      unfold matchStep at h
      rw [hbids, hbl0] at h
      cases hasks : b.asks with
      | nil => rw [hasks] at h; simp at h
      | cons alv ra =>
        obtain ⟨ap, al0⟩ := alv
        rw [hasks] at h
        cases al0 <;> simp at h
    | cons bid bl =>
      cases hasks : b.asks with
      | nil =>
        unfold matchStep at h
        rw [hbids, hasks] at h
        simp at h
      | cons alv ra =>
        obtain ⟨ap, al0⟩ := alv
        cases hal0 : al0 with
        | nil =>
          unfold matchStep at h
          rw [hbids, hasks, hbl0, hal0] at h
          simp at h
        | cons ask al =>
          rw [hbl0] at hbids
          rw [hal0] at hasks
          by_cases hcross : bp < ap
          · unfold matchStep at h
            rw [hbids, hasks] at h
            simp [if_pos hcross] at h
          · rw [matchStep_eq_stepped hbids hasks hcross rfl] at h
            injection h with h1 h2
            exact ⟨bp, bid, bl, rb, ap, ask, al, ra, _, rfl, rfl, hcross, rfl,
              h1.symm, h2.symm⟩


theorem matchStep_no_fail {b : Orderbook} {e : String} : matchStep b ≠ .failed e := by
  intro h
  cases hbids : b.bids with
  | nil =>
    unfold matchStep at h
    rw [hbids] at h
    simp at h
  | cons blv rb =>
    obtain ⟨bp, bl0⟩ := blv
    cases hbl0 : bl0 with
    | nil =>
      unfold matchStep at h
      rw [hbids, hbl0] at h
      cases hasks : b.asks with
      | nil => rw [hasks] at h; simp at h
      | cons alv ra =>
        obtain ⟨ap, al0⟩ := alv
        rw [hasks] at h
        cases al0 <;> simp at h
    | cons bid bl =>
      cases hasks : b.asks with
      | nil =>
        unfold matchStep at h
        rw [hbids, hasks] at h
        simp at h
      | cons alv ra =>
        obtain ⟨ap, al0⟩ := alv
        cases hal0 : al0 with
        | nil =>
          unfold matchStep at h
          rw [hbids, hasks, hbl0, hal0] at h
          simp at h
        | cons ask al =>
          rw [hbl0] at hbids
          rw [hal0] at hasks
          by_cases hcross : bp < ap
          · unfold matchStep at h
            rw [hbids, hasks] at h
            simp [if_pos hcross] at h
          · rw [matchStep_eq_stepped hbids hasks hcross rfl] at h
            simp at h

/-- When the loop stops on a book whose levels are all nonempty, either a
side is drained or the best prices no longer cross. -/
theorem matchStep_done_uncrossed {b : Orderbook}
    (hneb : NoEmptyLevels b.bids) (hnea : NoEmptyLevels b.asks)
    (h : matchStep b = .done) : Uncrossed b := by
  intro x hx y hy
  cases hbids : b.bids with
  | nil => rw [hbids] at hx; simp at hx
  | cons blv rb =>
    cases hasks : b.asks with
    | nil => rw [hasks] at hy; simp at hy
    | cons alv ra =>
      obtain ⟨bp, bl0⟩ := blv
      obtain ⟨ap, al0⟩ := alv
      rw [hbids] at hx
      rw [hasks] at hy
      simp at hx hy
      subst hx
      subst hy
      cases hbl0 : bl0 with
      | nil =>
        exfalso
        exact hneb (bp, bl0) (by rw [hbids]; simp) (by rw [hbl0])
      | cons bid bl =>
        cases hal0 : al0 with
        | nil =>
          exfalso
          exact hnea (ap, al0) (by rw [hasks]; simp) (by rw [hal0])
        | cons ask al =>
          rw [hbl0] at hbids
          rw [hal0] at hasks
          by_cases hcross : bp < ap
          · simpa using hcross
          · rw [matchStep_eq_stepped hbids hasks hcross rfl] at h
            simp at h

theorem filledOrder_orderId (o : Order) (q : Nat) : (filledOrder o q).orderId = o.orderId := rfl
theorem filledOrder_price (o : Order) (q : Nat) : (filledOrder o q).price = o.price := rfl
theorem filledOrder_side (o : Order) (q : Nat) : (filledOrder o q).side = o.side := rfl
theorem filledOrder_orderType (o : Order) (q : Nat) :
    (filledOrder o q).orderType = o.orderType := rfl

theorem filledOrder_IsFilled_iff (o : Order) (q : Nat) :
    (filledOrder o q).IsFilled = true ↔ o.remainingQuantity ≤ q := by
  unfold filledOrder Order.IsFilled
  simp
  omega

theorem min_filled_one {bid ask : Order} {q : Nat}
    (hq : q = min bid.remainingQuantity ask.remainingQuantity) :
    (filledOrder bid q).IsFilled = true ∨ (filledOrder ask q).IsFilled = true := by
  rw [filledOrder_IsFilled_iff, filledOrder_IsFilled_iff]
  omega

theorem reinsertLevel_keys_sublist (p : Int) (l : List Order) (rest : Levels) :
    ((reinsertLevel p l rest).map Prod.fst).Sublist (((p, l) :: rest).map Prod.fst) := by
  unfold reinsertLevel
  by_cases h : l.isEmpty
  · rw [if_pos h]
    simp only [List.map_cons]
    exact List.sublist_cons_self _ _
  · rw [if_neg h]

theorem NoEmptyLevels_reinsertLevel {p : Int} {l : List Order} {rest : Levels}
    (h : NoEmptyLevels rest) : NoEmptyLevels (reinsertLevel p l rest) := by
  unfold reinsertLevel
  by_cases he : l.isEmpty
  · rw [if_pos he]; exact h
  · rw [if_neg he]
    intro lv hlv
    rcases List.mem_cons.1 hlv with h' | h'
    · subst h'
      simpa [List.isEmpty_iff] using he
    · exact h lv h'

theorem levelOrders_eq_nil_of_not_mem_keys {ls : Levels} {p : Int}
    (h : p ∉ ls.map Prod.fst) : levelOrders ls p = [] := by
  induction ls with
  | nil => rfl
  | cons lv rest ih =>
    obtain ⟨p0, l0⟩ := lv
    rw [levelOrders, if_neg (by simp at h; exact fun hc => h.1 hc.symm)]
    exact ih (by simp at h ⊢; exact h.2)

theorem levelOrders_reinsertLevel_other {p q : Int} {l : List Order} {rest : Levels}
    (h : p ≠ q) : levelOrders (reinsertLevel p l rest) q = levelOrders rest q := by
  unfold reinsertLevel
  by_cases he : l.isEmpty
  · rw [if_pos he]
  · rw [if_neg he, levelOrders, if_neg h]

theorem levelOrders_reinsertLevel_self {p : Int} {l : List Order} {rest : Levels}
    (hl : l ≠ []) : levelOrders (reinsertLevel p l rest) p = l := by
  unfold reinsertLevel
  rw [if_neg (by simpa [List.isEmpty_iff] using hl), levelOrders, if_pos rfl]

theorem matchStep_size {b : Orderbook} {t : Trade} {b' : Orderbook}
    (h : matchStep b = .stepped t b') : bookSize b' < bookSize b := by
  obtain ⟨bp, bid, bl, rb, ap, ask, al, ra, q, hb, ha, hcross, hq, ht, hb'⟩ :=
    matchStep_stepped_inv h
  have hone := min_filled_one hq
  subst hb'
  unfold bookSize
  rw [hb, ha]
  simp only [ordersOf_reinsertLevel, ordersOf_cons, List.length_append]
  by_cases h1 : (filledOrder bid q).IsFilled = true <;>
    by_cases h2 : (filledOrder ask q).IsFilled = true
  · rw [if_pos h1, if_pos h2]; simp; omega
  · rw [if_pos h1, if_neg h2]; simp
  · rw [if_neg h1, if_pos h2]; simp
  · rcases hone with hx | hx
    · exact absurd hx h1
    · exact absurd hx h2

theorem mem_reinsertLevel {lv : Int × List Order} {p : Int} {l : List Order} {rest : Levels}
    (h : lv ∈ reinsertLevel p l rest) : (lv = (p, l) ∧ l ≠ []) ∨ lv ∈ rest := by
  unfold reinsertLevel at h
  by_cases he : l.isEmpty
  · rw [if_pos he] at h; exact Or.inr h
  · rw [if_neg he] at h
    rcases List.mem_cons.1 h with h' | h'
    · exact Or.inl ⟨h', by simpa [List.isEmpty_iff] using he⟩
    · exact Or.inr h'

theorem mem_ite_cons {c : Prop} [Decidable c] {o' x : Order} {l : List Order}
    (h : o' ∈ (if c then l else x :: l)) : o' ∈ l ∨ (¬ c ∧ o' = x) := by
  by_cases hc : c
  · rw [if_pos hc] at h; exact Or.inl h
  · rw [if_neg hc] at h
    rcases List.mem_cons.1 h with h' | h'
    · exact Or.inr ⟨hc, h'⟩
    · exact Or.inl h'

theorem ne_id_of_nodup_cons {x : Order} {l : List Order}
    (h : (List.map Order.orderId (x :: l)).Nodup) :
    ∀ y ∈ l, y.orderId ≠ x.orderId := by
  simp only [List.map_cons, List.nodup_cons] at h
  intro y hy hc
  exact h.1 (hc ▸ List.mem_map_of_mem Order.orderId hy)

theorem map_ite_cons_sublist (c : Prop) [Decidable c] (x bid : Order) (l : List Order)
    (hid : x.orderId = bid.orderId) :
    (List.map Order.orderId (if c then l else x :: l)).Sublist
      (List.map Order.orderId (bid :: l)) := by
  by_cases hc : c
  · rw [if_pos hc]
    simp only [List.map_cons]
    exact List.sublist_cons_self _ _
  · rw [if_neg hc]
    simp only [List.map_cons, hid]
    exact List.Sublist.refl _

theorem matchStep_CoreInv {b : Orderbook} {t : Trade} {b' : Orderbook}
    (hinv : CoreInv b) (h : matchStep b = .stepped t b') : CoreInv b' := by
  obtain ⟨hsb, hsa, hneb, hnea, hpb, hpa, hidx, hnd, hndk⟩ := hinv
  obtain ⟨bp, bid, bl, rb, ap, ask, al, ra, q, hb, ha, hcross, hq, ht, hb'⟩ :=
    matchStep_stepped_inv h
  have hOb : ordersOf b.bids = bid :: (bl ++ ordersOf rb) := by
    rw [hb, ordersOf_cons]; simp
  have hOa : ordersOf b.asks = ask :: (al ++ ordersOf ra) := by
    rw [ha, ordersOf_cons]; simp
  have hndall : ((allOrders b).map Order.orderId).Nodup := hnd
  unfold allOrders at hndall
  rw [List.map_append] at hndall
  have hnb : ((ordersOf b.bids).map Order.orderId).Nodup := List.Nodup.of_append_left hndall
  have hna : ((ordersOf b.asks).map Order.orderId).Nodup := List.Nodup.of_append_right hndall
  have hdisj : ∀ x ∈ (ordersOf b.bids).map Order.orderId,
      x ∉ (ordersOf b.asks).map Order.orderId := by
    intro x hx hy
    exact (List.nodup_append.1 hndall).2.2 hx hy
  have hbid_mem_b : bid ∈ ordersOf b.bids := by rw [hOb]; simp
  have hask_mem_a : ask ∈ ordersOf b.asks := by rw [hOa]; simp
  have hbid_ne_ask : bid.orderId ≠ ask.orderId := by
    intro hc
    exact hdisj bid.orderId (List.mem_map_of_mem _ hbid_mem_b)
      (hc ▸ List.mem_map_of_mem _ hask_mem_a)
  have horders : b'.orders = (if (filledOrder ask q).IsFilled = true
      then eraseId (if (filledOrder bid q).IsFilled = true
                    then eraseId b.orders bid.orderId else b.orders) ask.orderId
      else if (filledOrder bid q).IsFilled = true
           then eraseId b.orders bid.orderId else b.orders) := by
    rw [hb']
  -- lookups in the (possibly doubly erased) index
  have hlook' : ∀ id', ((filledOrder bid q).IsFilled = true → id' ≠ bid.orderId) →
      ((filledOrder ask q).IsFilled = true → id' ≠ ask.orderId) →
      lookupOrder b'.orders id' = lookupOrder b.orders id' := by
    intro id' hc1 hc2
    rw [horders]
    by_cases hf2 : (filledOrder ask q).IsFilled = true
    · rw [if_pos hf2]
      by_cases hf1 : (filledOrder bid q).IsFilled = true
      · rw [if_pos hf1, lookupOrder_eraseId_ne _ (hc2 hf2), lookupOrder_eraseId_ne _ (hc1 hf1)]
      · rw [if_neg hf1, lookupOrder_eraseId_ne _ (hc2 hf2)]
    · rw [if_neg hf2]
      by_cases hf1 : (filledOrder bid q).IsFilled = true
      · rw [if_pos hf1, lookupOrder_eraseId_ne _ (hc1 hf1)]
      · rw [if_neg hf1]
  -- membership in the new book decomposed
  have hmem' : ∀ o' ∈ allOrders b',
      ((o' ∈ bl ++ ordersOf rb) ∨ ((filledOrder bid q).IsFilled = false ∧ o' = filledOrder bid q)) ∨
      ((o' ∈ al ++ ordersOf ra) ∨ ((filledOrder ask q).IsFilled = false ∧ o' = filledOrder ask q)) := by
    intro o' ho'
    rw [hb'] at ho'
    unfold allOrders at ho'
    simp only [ordersOf_reinsertLevel] at ho'
    rcases List.mem_append.1 ho' with hm | hm
    · rcases List.mem_append.1 hm with hm' | hm'
      · rcases mem_ite_cons hm' with hm'' | ⟨hnc, hme⟩
        · exact Or.inl (Or.inl (List.mem_append_left _ hm''))
        · exact Or.inl (Or.inr ⟨by simpa using hnc, hme⟩)
      · exact Or.inl (Or.inl (List.mem_append_right _ hm'))
    · rcases List.mem_append.1 hm with hm' | hm'
      · rcases mem_ite_cons hm' with hm'' | ⟨hnc, hme⟩
        · exact Or.inr (Or.inl (List.mem_append_left _ hm''))
        · exact Or.inr (Or.inr ⟨by simpa using hnc, hme⟩)
      · exact Or.inr (Or.inl (List.mem_append_right _ hm'))
  refine ⟨?_, ?_, ?_, ?_, ?_, ?_, ?_, ?_, ?_⟩
  · -- SortedBids
    rw [hb']
    refine hsb.sublist ?_
    rw [hb]
    exact (reinsertLevel_keys_sublist bp _ rb).trans (by simp)
  · -- SortedAsks
    rw [hb']
    refine hsa.sublist ?_
    rw [ha]
    exact (reinsertLevel_keys_sublist ap _ ra).trans (by simp)
  · -- NoEmptyLevels bids
    rw [hb']
    exact NoEmptyLevels_reinsertLevel
      (fun lv hlv => hneb lv (by rw [hb]; simp; exact Or.inr hlv))
  · -- NoEmptyLevels asks
    rw [hb']
    exact NoEmptyLevels_reinsertLevel
      (fun lv hlv => hnea lv (by rw [ha]; simp; exact Or.inr hlv))
  · -- SidePricesOK bids
    rw [hb']
    intro lv hlv o' ho'
    rcases mem_reinsertLevel hlv with ⟨hlv', _⟩ | hlv'
    · subst hlv'
      rcases mem_ite_cons ho' with hm | ⟨_, hm⟩
      · exact hpb (bp, bid :: bl) (by rw [hb]; simp) o' (by simp; exact Or.inr hm)
      · subst hm
        have := hpb (bp, bid :: bl) (by rw [hb]; simp) bid (by simp)
        simpa [filledOrder] using this
    · exact hpb lv (by rw [hb]; simp; exact Or.inr hlv') o' ho'
  · -- SidePricesOK asks
    rw [hb']
    intro lv hlv o' ho'
    rcases mem_reinsertLevel hlv with ⟨hlv', _⟩ | hlv'
    · subst hlv'
      rcases mem_ite_cons ho' with hm | ⟨_, hm⟩
      · exact hpa (ap, ask :: al) (by rw [ha]; simp) o' (by simp; exact Or.inr hm)
      · subst hm
        have := hpa (ap, ask :: al) (by rw [ha]; simp) ask (by simp)
        simpa [filledOrder] using this
    · exact hpa lv (by rw [ha]; simp; exact Or.inr hlv') o' ho'
  · -- IndexCorrect
    intro o' ho'
    rcases hmem' o' ho' with (hm | ⟨hnf, hm⟩) | (hm | ⟨hnf, hm⟩)
    · have ho'' : o' ∈ allOrders b := by
        unfold allOrders
        refine List.mem_append_left _ ?_
        rw [hOb]
        simp
        rcases List.mem_append.1 hm with h' | h'
        · exact Or.inr (Or.inl h')
        · exact Or.inr (Or.inr h')
      have hne1 : o'.orderId ≠ bid.orderId :=
        ne_id_of_nodup_cons (by rw [← hOb]; exact hnb) o' hm
      have hne2 : o'.orderId ≠ ask.orderId := by
        intro hc
        refine hdisj o'.orderId ?_ ?_
        · refine List.mem_map_of_mem _ ?_
          rw [hOb]; simp
          rcases List.mem_append.1 hm with h' | h'
          · exact Or.inr (Or.inl h')
          · exact Or.inr (Or.inr h')
        · exact hc ▸ List.mem_map_of_mem _ hask_mem_a
      rw [hlook' o'.orderId (fun _ => hne1) (fun _ => hne2)]
      exact hidx o' ho''
    · subst hm
      have hne2 : (filledOrder bid q).orderId ≠ ask.orderId := by
        rw [filledOrder_orderId]; exact hbid_ne_ask
      rw [hlook' _ (fun hf => absurd hf (by rw [hnf]; simp)) (fun _ => hne2)]
      rw [filledOrder_orderId, filledOrder_side, filledOrder_price, filledOrder_orderType]
      exact hidx bid (by unfold allOrders; exact List.mem_append_left _ hbid_mem_b)
    · have ho'' : o' ∈ allOrders b := by
        unfold allOrders
        refine List.mem_append_right _ ?_
        rw [hOa]
        simp
        rcases List.mem_append.1 hm with h' | h'
        · exact Or.inr (Or.inl h')
        · exact Or.inr (Or.inr h')
      have hne2 : o'.orderId ≠ ask.orderId :=
        ne_id_of_nodup_cons (by rw [← hOa]; exact hna) o' hm
      have hne1 : o'.orderId ≠ bid.orderId := by
        intro hc
        refine hdisj o'.orderId ?_ ?_
        · exact hc ▸ List.mem_map_of_mem _ hbid_mem_b
        · refine List.mem_map_of_mem _ ?_
          rw [hOa]; simp
          rcases List.mem_append.1 hm with h' | h'
          · exact Or.inr (Or.inl h')
          · exact Or.inr (Or.inr h')
      rw [hlook' o'.orderId (fun _ => hne1) (fun _ => hne2)]
      exact hidx o' ho''
    · subst hm
      have hne1 : (filledOrder ask q).orderId ≠ bid.orderId := by
        rw [filledOrder_orderId]; exact fun hc => hbid_ne_ask hc.symm
      rw [hlook' _ (fun _ => hne1) (fun hf => absurd hf (by rw [hnf]; simp))]
      rw [filledOrder_orderId, filledOrder_side, filledOrder_price, filledOrder_orderType]
      exact hidx ask (by unfold allOrders; exact List.mem_append_right _ hask_mem_a)
  · -- NodupIds
    unfold NodupIds
    refine hnd.sublist ?_
    unfold allOrders
    rw [hb', List.map_append, List.map_append]
    simp only [ordersOf_reinsertLevel]
    refine List.Sublist.append ?_ ?_
    · rw [hOb, List.map_append]
      have hs2 := (map_ite_cons_sublist ((filledOrder bid q).IsFilled = true)
        (filledOrder bid q) bid bl rfl).append
        (List.Sublist.refl (List.map Order.orderId (ordersOf rb)))
      have heq : List.map Order.orderId (bid :: bl) ++ List.map Order.orderId (ordersOf rb)
          = List.map Order.orderId (bid :: (bl ++ ordersOf rb)) := by simp
      rw [← heq]
      exact hs2
    · rw [hOa, List.map_append]
      have hs2 := (map_ite_cons_sublist ((filledOrder ask q).IsFilled = true)
        (filledOrder ask q) ask al rfl).append
        (List.Sublist.refl (List.map Order.orderId (ordersOf ra)))
      have heq : List.map Order.orderId (ask :: al) ++ List.map Order.orderId (ordersOf ra)
          = List.map Order.orderId (ask :: (al ++ ordersOf ra)) := by simp
      rw [← heq]
      exact hs2
  · -- Nodup index keys
    rw [horders]
    by_cases hf2 : (filledOrder ask q).IsFilled = true
    · rw [if_pos hf2]
      by_cases hf1 : (filledOrder bid q).IsFilled = true
      · rw [if_pos hf1]
        exact (hndk.sublist ((eraseId_sublist _ _).map Prod.fst)).sublist
          ((eraseId_sublist _ _).map Prod.fst)
      · rw [if_neg hf1]
        exact hndk.sublist ((eraseId_sublist _ _).map Prod.fst)
    · rw [if_neg hf2]
      by_cases hf1 : (filledOrder bid q).IsFilled = true
      · rw [if_pos hf1]
        exact hndk.sublist ((eraseId_sublist _ _).map Prod.fst)
      · rw [if_neg hf1]
        exact hndk

theorem NoFAKIn_tail {l : List Order} (h : NoFAKIn l) : NoFAKIn l.tail :=
  fun o ho => h o (List.mem_of_mem_tail ho)

theorem FAKBestHeadOnly_step {p : Int} {o : Order} {l : List Order} {rest : Levels}
    (h : FAKBestHeadOnly ((p, o :: l) :: rest)) (X : List Order)
    (hX : X = l ∨ ∃ x, X = x :: l) :
    FAKBestHeadOnly (reinsertLevel p X rest) := by
  obtain ⟨hhead, hrest⟩ := h
  have hl : NoFAKIn l := by
    have := hhead (p, o :: l) (by simp)
    simpa using this
  have hrest' : ∀ lv ∈ rest, NoFAKIn lv.2 := fun lv hlv => hrest lv (by simpa using hlv)
  unfold reinsertLevel
  by_cases he : X.isEmpty
  · rw [if_pos he]
    constructor
    · intro lv hlv
      have hlv' : lv ∈ rest := by
        cases rest with
        | nil => simp at hlv
        | cons r rs => simp at hlv; simp [hlv]
      exact NoFAKIn_tail (hrest' lv hlv')
    · intro lv hlv
      exact hrest' lv (List.mem_of_mem_tail hlv)
  · rw [if_neg he]
    constructor
    · intro lv hlv
      simp at hlv
      subst hlv
      simp only
      rcases hX with hX | ⟨x, hX⟩
      · subst hX; exact NoFAKIn_tail hl
      · subst hX; simpa using hl
    · intro lv hlv
      simp at hlv
      exact hrest' lv hlv

theorem matchStep_FAKInv {b : Orderbook} {t : Trade} {b' : Orderbook}
    (hfak : FAKInv b) (h : matchStep b = .stepped t b') : FAKInv b' := by
  obtain ⟨bp, bid, bl, rb, ap, ask, al, ra, q, hb, ha, hcross, hq, ht, hb'⟩ :=
    matchStep_stepped_inv h
  obtain ⟨hfb, hfa⟩ := hfak
  rw [hb] at hfb
  rw [ha] at hfa
  rw [hb']
  constructor
  · refine FAKBestHeadOnly_step hfb _ ?_
    by_cases hf : (filledOrder bid q).IsFilled = true
    · rw [if_pos hf]; exact Or.inl rfl
    · rw [if_neg hf]; exact Or.inr ⟨_, rfl⟩
  · refine FAKBestHeadOnly_step hfa _ ?_
    by_cases hf : (filledOrder ask q).IsFilled = true
    · rw [if_pos hf]; exact Or.inl rfl
    · rw [if_neg hf]; exact Or.inr ⟨_, rfl⟩

theorem matchStep_totalQty {b : Orderbook} {t : Trade} {b' : Orderbook}
    (h : matchStep b = .stepped t b') :
    totalQty b' + t.bidTrade.quantity + t.askTrade.quantity = totalQty b := by
  obtain ⟨bp, bid, bl, rb, ap, ask, al, ra, q, hb, ha, hcross, hq, ht, hb'⟩ :=
    matchStep_stepped_inv h
  subst ht
  rw [hb']
  unfold totalQty allOrders stepTrade
  rw [hb, ha]
  simp only [ordersOf_reinsertLevel, ordersOf_cons, List.map_append, List.sum_append]
  by_cases hf1 : (filledOrder bid q).IsFilled = true <;>
    by_cases hf2 : (filledOrder ask q).IsFilled = true <;>
    [rw [if_pos hf1, if_pos hf2]; rw [if_pos hf1, if_neg hf2];
     rw [if_neg hf1, if_pos hf2]; rw [if_neg hf1, if_neg hf2]] <;>
    rw [filledOrder_IsFilled_iff] at hf1 hf2 <;>
    simp only [List.map_cons, List.sum_cons, filledOrder] <;>
    omega

theorem matchStep_fifo {b : Orderbook} {t : Trade} {b' : Orderbook}
    (hsb : SortedBids b.bids) (hsa : SortedAsks b.asks)
    (h : matchStep b = .stepped t b') :
    ∀ s p, fifoConsumed (levelOrders (sideLevels b s) p) (levelOrders (sideLevels b' s) p) := by
  obtain ⟨bp, bid, bl, rb, ap, ask, al, ra, q, hb, ha, hcross, hq, ht, hb'⟩ :=
    matchStep_stepped_inv h
  intro s p
  cases s with
  | Buy =>
    have hside : sideLevels b Side.Buy = (bp, bid :: bl) :: rb := hb
    have hside' : sideLevels b' Side.Buy =
        reinsertLevel bp (if (filledOrder bid q).IsFilled = true then bl
                          else filledOrder bid q :: bl) rb := by
      rw [hb']
      rfl
    rw [hside, hside']
    by_cases hp : p = bp
    · subst hp
      rw [levelOrders, if_pos rfl]
      have hnotmem : p ∉ rb.map Prod.fst := by
        unfold SortedBids at hsb
        rw [hb] at hsb
        simp only [List.map_cons, List.pairwise_cons] at hsb
        intro hc
        have := hsb.1 p hc
        omega
      by_cases hf : (filledOrder bid q).IsFilled = true
      · rw [if_pos hf]
        by_cases hbl : bl = []
        · subst hbl
          rw [show reinsertLevel p ([] : List Order) rb = rb from rfl,
            levelOrders_eq_nil_of_not_mem_keys hnotmem]
          exact fifoConsumed_nil _
        · rw [levelOrders_reinsertLevel_self hbl]
          exact fifoConsumed_tail _
      · rw [if_neg hf, levelOrders_reinsertLevel_self (by simp)]
        exact fifoConsumed_reduce q _
    · rw [levelOrders, if_neg (fun hc => hp hc.symm),
        levelOrders_reinsertLevel_other (fun hc => hp hc.symm)]
      exact fifoConsumed_refl _
  | Sell =>
    have hside : sideLevels b Side.Sell = (ap, ask :: al) :: ra := ha
    have hside' : sideLevels b' Side.Sell =
        reinsertLevel ap (if (filledOrder ask q).IsFilled = true then al
                          else filledOrder ask q :: al) ra := by
      rw [hb']
      rfl
    rw [hside, hside']
    by_cases hp : p = ap
    · subst hp
      rw [levelOrders, if_pos rfl]
      have hnotmem : p ∉ ra.map Prod.fst := by
        unfold SortedAsks at hsa
        rw [ha] at hsa
        simp only [List.map_cons, List.pairwise_cons] at hsa
        intro hc
        have := hsa.1 p hc
        omega
      by_cases hf : (filledOrder ask q).IsFilled = true
      · rw [if_pos hf]
        by_cases hal : al = []
        · subst hal
          rw [show reinsertLevel p ([] : List Order) ra = ra from rfl,
            levelOrders_eq_nil_of_not_mem_keys hnotmem]
          exact fifoConsumed_nil _
        · rw [levelOrders_reinsertLevel_self hal]
          exact fifoConsumed_tail _
      · rw [if_neg hf, levelOrders_reinsertLevel_self (by simp)]
        exact fifoConsumed_reduce q _
    · rw [levelOrders, if_neg (fun hc => hp hc.symm),
        levelOrders_reinsertLevel_other (fun hc => hp hc.symm)]
      exact fifoConsumed_refl _

/-! ## Lemmas about the matching loop -/

theorem matchStep_done_of_size_zero {b : Orderbook} (h : bookSize b = 0) :
    matchStep b = .done := by
  unfold bookSize at h
  cases hbids : b.bids with
  | nil =>
    unfold matchStep
    rw [hbids]
  | cons blv rb =>
    obtain ⟨bp, bl0⟩ := blv
    cases hbl0 : bl0 with
    | nil =>
      unfold matchStep
      rw [hbids, hbl0]
    | cons o rest =>
      exfalso
      rw [hbids, hbl0, ordersOf_cons] at h
      simp at h

theorem matchLoopFuel_succ_done {n : Nat} {b : Orderbook} (hs : matchStep b = .done) :
    matchLoopFuel (n + 1) b = .ok ([], b) := by
  rw [matchLoopFuel, hs]

theorem matchLoopFuel_succ_stepped_ok {n : Nat} {b b' bf : Orderbook} {t : Trade}
    {ts : List Trade} (hs : matchStep b = .stepped t b')
    (hrec : matchLoopFuel n b' = .ok (ts, bf)) :
    matchLoopFuel (n + 1) b = .ok (t :: ts, bf) := by
  simp only [matchLoopFuel, hs, hrec]

theorem matchLoopFuel_ok (n : Nat) (b : Orderbook) :
    ∃ ts b2, matchLoopFuel n b = .ok (ts, b2) := by
  induction n generalizing b with
  | zero => exact ⟨[], b, rfl⟩
  | succ n ih =>
    cases hs : matchStep b with
    | done => exact ⟨[], b, matchLoopFuel_succ_done hs⟩
    | failed e => exact absurd hs matchStep_no_fail
    | stepped t b' =>
      obtain ⟨ts, b2, hrec⟩ := ih b'
      exact ⟨t :: ts, b2, matchLoopFuel_succ_stepped_ok hs hrec⟩

theorem matchLoopFuel_zero_inv {b b2 : Orderbook} {ts : List Trade}
    (h : matchLoopFuel 0 b = .ok (ts, b2)) : ts = [] ∧ b2 = b := by
  rw [matchLoopFuel] at h
  simp only [Except.ok.injEq, Prod.mk.injEq] at h
  exact ⟨h.1.symm, h.2.symm⟩

theorem matchLoopFuel_done_inv {n : Nat} {b b2 : Orderbook} {ts : List Trade}
    (hs : matchStep b = .done) (h : matchLoopFuel (n + 1) b = .ok (ts, b2)) :
    ts = [] ∧ b2 = b := by
  rw [matchLoopFuel_succ_done hs] at h
  simp only [Except.ok.injEq, Prod.mk.injEq] at h
  exact ⟨h.1.symm, h.2.symm⟩

theorem matchLoopFuel_stepped_inv {n : Nat} {b b' b2 : Orderbook} {t : Trade}
    {ts : List Trade} (hs : matchStep b = .stepped t b')
    (h : matchLoopFuel (n + 1) b = .ok (ts, b2)) :
    ∃ ts', matchLoopFuel n b' = .ok (ts', b2) ∧ ts = t :: ts' := by
  obtain ⟨ts0, b20, hrec⟩ := matchLoopFuel_ok n b'
  rw [matchLoopFuel_succ_stepped_ok hs hrec] at h
  simp only [Except.ok.injEq, Prod.mk.injEq] at h
  exact ⟨ts0, by rw [hrec, h.2], h.1.symm⟩

theorem matchLoopFuel_CoreInv {n : Nat} {b b2 : Orderbook} {ts : List Trade}
    (hinv : CoreInv b) (h : matchLoopFuel n b = .ok (ts, b2)) : CoreInv b2 := by
  induction n generalizing b ts with
  | zero => exact (matchLoopFuel_zero_inv h).2 ▸ hinv
  | succ n ih =>
    cases hs : matchStep b with
    | done => exact (matchLoopFuel_done_inv hs h).2 ▸ hinv
    | failed e => exact absurd hs matchStep_no_fail
    | stepped t b' =>
      obtain ⟨ts', hrec, hts⟩ := matchLoopFuel_stepped_inv hs h
      exact ih (matchStep_CoreInv hinv hs) hrec

theorem matchLoopFuel_FAKInv {n : Nat} {b b2 : Orderbook} {ts : List Trade}
    (hfak : FAKInv b) (h : matchLoopFuel n b = .ok (ts, b2)) : FAKInv b2 := by
  induction n generalizing b ts with
  | zero => exact (matchLoopFuel_zero_inv h).2 ▸ hfak
  | succ n ih =>
    cases hs : matchStep b with
    | done => exact (matchLoopFuel_done_inv hs h).2 ▸ hfak
    | failed e => exact absurd hs matchStep_no_fail
    | stepped t b' =>
      obtain ⟨ts', hrec, hts⟩ := matchLoopFuel_stepped_inv hs h
      exact ih (matchStep_FAKInv hfak hs) hrec

theorem matchLoopFuel_size {n : Nat} {b b2 : Orderbook} {ts : List Trade}
    (h : matchLoopFuel n b = .ok (ts, b2)) : bookSize b2 + ts.length ≤ bookSize b := by
  induction n generalizing b ts with
  | zero =>
    obtain ⟨h1, h2⟩ := matchLoopFuel_zero_inv h
    subst h1 h2
    simp
  | succ n ih =>
    cases hs : matchStep b with
    | done =>
      obtain ⟨h1, h2⟩ := matchLoopFuel_done_inv hs h
      subst h1 h2
      simp
    | failed e => exact absurd hs matchStep_no_fail
    | stepped t b' =>
      obtain ⟨ts', hrec, hts⟩ := matchLoopFuel_stepped_inv hs h
      subst hts
      have h3 := ih hrec
      have h4 := matchStep_size hs
      simp only [List.length_cons]
      omega

theorem matchLoopFuel_totalQty {n : Nat} {b b2 : Orderbook} {ts : List Trade}
    (h : matchLoopFuel n b = .ok (ts, b2)) : totalQty b2 + tradesLegsSum ts = totalQty b := by
  induction n generalizing b ts with
  | zero =>
    obtain ⟨h1, h2⟩ := matchLoopFuel_zero_inv h
    subst h1 h2
    simp [tradesLegsSum]
  | succ n ih =>
    cases hs : matchStep b with
    | done =>
      obtain ⟨h1, h2⟩ := matchLoopFuel_done_inv hs h
      subst h1 h2
      simp [tradesLegsSum]
    | failed e => exact absurd hs matchStep_no_fail
    | stepped t b' =>
      obtain ⟨ts', hrec, hts⟩ := matchLoopFuel_stepped_inv hs h
      subst hts
      have h3 := ih hrec
      have h4 := matchStep_totalQty hs
      unfold tradesLegsSum at h3 ⊢
      simp only [List.map_cons, List.sum_cons]
      omega

theorem matchLoopFuel_uncrossed {n : Nat} {b b2 : Orderbook} {ts : List Trade}
    (hinv : CoreInv b) (hn : bookSize b ≤ n) (h : matchLoopFuel n b = .ok (ts, b2)) :
    Uncrossed b2 := by
  induction n generalizing b ts with
  | zero =>
    obtain ⟨h1, h2⟩ := matchLoopFuel_zero_inv h
    rw [h2]
    obtain ⟨_, _, hneb, hnea, _⟩ := hinv
    intro x hx y hy
    exfalso
    cases hbids : b.bids with
    | nil => rw [hbids] at hx; simp at hx
    | cons lv rb =>
      have hle := hneb lv (by rw [hbids]; simp)
      unfold bookSize at hn
      rw [hbids, ordersOf_cons] at hn
      cases hll : lv.2 with
      | nil => exact hle hll
      | cons o rest => rw [hll] at hn; simp at hn
  | succ n ih =>
    cases hs : matchStep b with
    | done =>
      obtain ⟨h1, h2⟩ := matchLoopFuel_done_inv hs h
      rw [h2]
      obtain ⟨_, _, hneb, hnea, _⟩ := hinv
      exact matchStep_done_uncrossed hneb hnea hs
    | failed e => exact absurd hs matchStep_no_fail
    | stepped t b' =>
      obtain ⟨ts', hrec, hts⟩ := matchLoopFuel_stepped_inv hs h
      have hsz := matchStep_size hs
      exact ih (matchStep_CoreInv hinv hs) (by omega) hrec

theorem matchLoopFuel_fifo {n : Nat} {b b2 : Orderbook} {ts : List Trade}
    (hinv : CoreInv b) (h : matchLoopFuel n b = .ok (ts, b2)) :
    ∀ s p, fifoConsumed (levelOrders (sideLevels b s) p) (levelOrders (sideLevels b2 s) p) := by
  induction n generalizing b ts with
  | zero =>
    obtain ⟨h1, h2⟩ := matchLoopFuel_zero_inv h
    subst h2
    exact fun s p => fifoConsumed_refl _
  | succ n ih =>
    cases hs : matchStep b with
    | done =>
      obtain ⟨h1, h2⟩ := matchLoopFuel_done_inv hs h
      subst h2
      exact fun s p => fifoConsumed_refl _
    | failed e => exact absurd hs matchStep_no_fail
    | stepped t b' =>
      obtain ⟨ts', hrec, hts⟩ := matchLoopFuel_stepped_inv hs h
      intro s p
      exact fifoConsumed_trans
        (matchStep_fifo hinv.1 hinv.2.1 hs s p)
        (ih (matchStep_CoreInv hinv hs) hrec s p)

theorem matchLoopFuel_succ_eq {n : Nat} {b : Orderbook} (hn : bookSize b ≤ n) :
    matchLoopFuel (n + 1) b = matchLoopFuel n b := by
  induction n generalizing b with
  | zero =>
    rw [matchLoopFuel_succ_done (matchStep_done_of_size_zero (Nat.le_zero.1 hn)),
      matchLoopFuel]
  | succ n ih =>
    cases hs : matchStep b with
    | done =>
      rw [matchLoopFuel_succ_done hs, matchLoopFuel_succ_done hs]
    | failed e => exact absurd hs matchStep_no_fail
    | stepped t b' =>
      have hsz := matchStep_size hs
      obtain ⟨ts, bf, hrec⟩ := matchLoopFuel_ok n b'
      have hrec' : matchLoopFuel (n + 1) b' = .ok (ts, bf) := by
        rw [ih (by omega)]
        exact hrec
      rw [matchLoopFuel_succ_stepped_ok hs hrec',
        matchLoopFuel_succ_stepped_ok hs hrec]

theorem matchLoopFuel_add_eq {n : Nat} {b : Orderbook} (hn : bookSize b ≤ n) (d : Nat) :
    matchLoopFuel (n + d) b = matchLoopFuel n b := by
  induction d with
  | zero => rfl
  | succ d ih =>
    rw [show n + (d + 1) = (n + d) + 1 by omega,
      matchLoopFuel_succ_eq (by omega), ih]

/-- Fuel irrelevance: any fuel at least the number of resting orders computes
the same result — the C++ loop terminates within `bookSize` iterations. -/
theorem matchLoopFuel_fuel_irrelevant {n m : Nat} {b : Orderbook}
    (hn : bookSize b ≤ n) (hm : bookSize b ≤ m) :
    matchLoopFuel n b = matchLoopFuel m b := by
  have h1 : matchLoopFuel n b = matchLoopFuel (bookSize b) b := by
    have h := matchLoopFuel_add_eq (Nat.le_refl (bookSize b)) (n - bookSize b)
    rw [show bookSize b + (n - bookSize b) = n by omega] at h
    exact h
  have h2 : matchLoopFuel m b = matchLoopFuel (bookSize b) b := by
    have h := matchLoopFuel_add_eq (Nat.le_refl (bookSize b)) (m - bookSize b)
    rw [show bookSize b + (m - bookSize b) = m by omega] at h
    exact h
  rw [h1, h2]

/-! ## Lemmas about the post-loop FillAndKill purge -/

theorem purgeFAK_eq (b : Orderbook) : purgeFAK b = purgeAskSide (purgeBidSide b) := rfl

theorem purgeBidSide_cases (b : Orderbook) :
    (purgeBidSide b = b ∧ purgedBidQty b = 0 ∧
      (∀ p o l rest, b.bids = (p, o :: l) :: rest → o.orderType ≠ OrderType.FillAndKill)) ∨
    (∃ p o l rest, b.bids = (p, o :: l) :: rest ∧ o.orderType = OrderType.FillAndKill ∧
      purgeBidSide b = b.CancelOrder o.orderId ∧ purgedBidQty b = o.remainingQuantity) := by
  cases hbids : b.bids with
  | nil =>
    refine Or.inl ⟨?_, ?_, ?_⟩
    · unfold purgeBidSide; rw [hbids]
    · unfold purgedBidQty; rw [hbids]
    · intro p o l rest hc
      cases hc
  | cons lv rest =>
    obtain ⟨p0, l0⟩ := lv
    cases hl0 : l0 with
    | nil =>
      have heq : b.bids = (p0, []) :: rest := by rw [hbids, hl0]
      refine Or.inl ⟨?_, ?_, ?_⟩
      · unfold purgeBidSide; rw [heq]
      · unfold purgedBidQty; rw [heq]
      · intro p o l rest' hc
        injection hc with hc1 hc2
        injection hc1 with hc3 hc4
        cases hc4
    | cons o l =>
      have heq : b.bids = (p0, o :: l) :: rest := by rw [hbids, hl0]
      by_cases hfk : o.orderType = OrderType.FillAndKill
      · refine Or.inr ⟨p0, o, l, rest, rfl, hfk, ?_, ?_⟩
        · unfold purgeBidSide
          rw [heq]
          show (if o.orderType = OrderType.FillAndKill
                then b.CancelOrder o.orderId else b) = b.CancelOrder o.orderId
          exact if_pos hfk
        · unfold purgedBidQty
          rw [heq]
          show (if o.orderType = OrderType.FillAndKill
                then o.remainingQuantity else 0) = o.remainingQuantity
          exact if_pos hfk
      · refine Or.inl ⟨?_, ?_, ?_⟩
        · unfold purgeBidSide
          rw [heq]
          show (if o.orderType = OrderType.FillAndKill
                then b.CancelOrder o.orderId else b) = b
          exact if_neg hfk
        · unfold purgedBidQty
          rw [heq]
          show (if o.orderType = OrderType.FillAndKill
                then o.remainingQuantity else 0) = 0
          exact if_neg hfk
        · intro p o' l' rest' hc
          injection hc with hc1 hc2
          injection hc1 with hc3 hc4
          injection hc4 with hc5 hc6
          rw [← hc5]
          exact hfk

theorem purgeAskSide_cases (b : Orderbook) :
    (purgeAskSide b = b ∧ purgedAskQty b = 0 ∧
      (∀ p o l rest, b.asks = (p, o :: l) :: rest → o.orderType ≠ OrderType.FillAndKill)) ∨
    (∃ p o l rest, b.asks = (p, o :: l) :: rest ∧ o.orderType = OrderType.FillAndKill ∧
      purgeAskSide b = b.CancelOrder o.orderId ∧ purgedAskQty b = o.remainingQuantity) := by
  cases hasks : b.asks with
  | nil =>
    refine Or.inl ⟨?_, ?_, ?_⟩
    · unfold purgeAskSide; rw [hasks]
    · unfold purgedAskQty; rw [hasks]
    · intro p o l rest hc
      cases hc
  | cons lv rest =>
    obtain ⟨p0, l0⟩ := lv
    cases hl0 : l0 with
    | nil =>
      have heq : b.asks = (p0, []) :: rest := by rw [hasks, hl0]
      refine Or.inl ⟨?_, ?_, ?_⟩
      · unfold purgeAskSide; rw [heq]
      · unfold purgedAskQty; rw [heq]
      · intro p o l rest' hc
        injection hc with hc1 hc2
        injection hc1 with hc3 hc4
        cases hc4
    | cons o l =>
      have heq : b.asks = (p0, o :: l) :: rest := by rw [hasks, hl0]
      by_cases hfk : o.orderType = OrderType.FillAndKill
      · refine Or.inr ⟨p0, o, l, rest, rfl, hfk, ?_, ?_⟩
        · unfold purgeAskSide
          rw [heq]
          show (if o.orderType = OrderType.FillAndKill
                then b.CancelOrder o.orderId else b) = b.CancelOrder o.orderId
          exact if_pos hfk
        · unfold purgedAskQty
          rw [heq]
          show (if o.orderType = OrderType.FillAndKill
                then o.remainingQuantity else 0) = o.remainingQuantity
          exact if_pos hfk
      · refine Or.inl ⟨?_, ?_, ?_⟩
        · unfold purgeAskSide
          rw [heq]
          show (if o.orderType = OrderType.FillAndKill
                then b.CancelOrder o.orderId else b) = b
          exact if_neg hfk
        · unfold purgedAskQty
          rw [heq]
          show (if o.orderType = OrderType.FillAndKill
                then o.remainingQuantity else 0) = 0
          exact if_neg hfk
        · intro p o' l' rest' hc
          injection hc with hc1 hc2
          injection hc1 with hc3 hc4
          injection hc4 with hc5 hc6
          rw [← hc5]
          exact hfk

theorem cancelAt_head_self (p : Int) (o : Order) (l : List Order) (rest : Levels) :
    cancelAt ((p, o :: l) :: rest) p o.orderId = reinsertLevel p l rest := by
  rw [cancelAt, if_pos rfl, eraseOrderId_head l rfl]
  rfl

theorem purgeBidSide_CoreInv {b : Orderbook} (hinv : CoreInv b) :
    CoreInv (purgeBidSide b) := by
  rcases purgeBidSide_cases b with ⟨heq, _⟩ | ⟨p, o, l, rest, hb, hfk, heq, _⟩
  · rw [heq]; exact hinv
  · rw [heq]; exact CancelOrder_CoreInv _ hinv

theorem purgeAskSide_CoreInv {b : Orderbook} (hinv : CoreInv b) :
    CoreInv (purgeAskSide b) := by
  rcases purgeAskSide_cases b with ⟨heq, _⟩ | ⟨p, o, l, rest, hb, hfk, heq, _⟩
  · rw [heq]; exact hinv
  · rw [heq]; exact CancelOrder_CoreInv _ hinv

theorem purgeFAK_CoreInv {b : Orderbook} (hinv : CoreInv b) : CoreInv (purgeFAK b) := by
  rw [purgeFAK_eq]
  exact purgeAskSide_CoreInv (purgeBidSide_CoreInv hinv)

theorem purgeBidSide_Uncrossed {b : Orderbook} (hinv : CoreInv b) (hu : Uncrossed b) :
    Uncrossed (purgeBidSide b) := by
  rcases purgeBidSide_cases b with ⟨heq, _⟩ | ⟨p, o, l, rest, hb, hfk, heq, _⟩
  · rw [heq]; exact hu
  · rw [heq]; exact CancelOrder_Uncrossed _ hinv hu

theorem purgeAskSide_Uncrossed {b : Orderbook} (hinv : CoreInv b) (hu : Uncrossed b) :
    Uncrossed (purgeAskSide b) := by
  rcases purgeAskSide_cases b with ⟨heq, _⟩ | ⟨p, o, l, rest, hb, hfk, heq, _⟩
  · rw [heq]; exact hu
  · rw [heq]; exact CancelOrder_Uncrossed _ hinv hu

theorem purgeFAK_Uncrossed {b : Orderbook} (hinv : CoreInv b) (hu : Uncrossed b) :
    Uncrossed (purgeFAK b) := by
  rw [purgeFAK_eq]
  exact purgeAskSide_Uncrossed (purgeBidSide_CoreInv hinv) (purgeBidSide_Uncrossed hinv hu)

/-- Cancelling the head order of the best bid level pops exactly that order
(and the level, if now empty). -/
theorem purge_cancel_bid_char {b : Orderbook} {p : Int} {o : Order} {l : List Order}
    {rest : Levels} (hinv : CoreInv b) (hb : b.bids = (p, o :: l) :: rest) :
    b.CancelOrder o.orderId =
      { b with bids := reinsertLevel p l rest, orders := eraseId b.orders o.orderId } := by
  obtain ⟨hsb, hsa, hneb, hnea, hpb, hpa, hidx, hnd, hndk⟩ := hinv
  have hmem : o ∈ allOrders b := by
    unfold allOrders
    refine List.mem_append_left _ ?_
    rw [hb, ordersOf_cons]
    simp
  have hattr := hpb (p, o :: l) (by rw [hb]; simp) o (by simp)
  have hlook := hidx o hmem
  rw [CancelOrder_known_buy hlook (by simpa using hattr.2)]
  have hpr : o.price = p := by simpa using hattr.1
  rw [hpr, hb, cancelAt_head_self]

/-- Cancelling the head order of the best ask level pops exactly that order. -/
theorem purge_cancel_ask_char {b : Orderbook} {p : Int} {o : Order} {l : List Order}
    {rest : Levels} (hinv : CoreInv b) (ha : b.asks = (p, o :: l) :: rest) :
    b.CancelOrder o.orderId =
      { b with asks := reinsertLevel p l rest, orders := eraseId b.orders o.orderId } := by
  obtain ⟨hsb, hsa, hneb, hnea, hpb, hpa, hidx, hnd, hndk⟩ := hinv
  have hmem : o ∈ allOrders b := by
    unfold allOrders
    refine List.mem_append_right _ ?_
    rw [ha, ordersOf_cons]
    simp
  have hattr := hpa (p, o :: l) (by rw [ha]; simp) o (by simp)
  have hlook := hidx o hmem
  rw [CancelOrder_known_sell hlook (by simpa using hattr.2)]
  have hpr : o.price = p := by simpa using hattr.1
  rw [hpr, ha, cancelAt_head_self]

theorem purgeBidSide_asks {b : Orderbook} (hinv : CoreInv b) :
    (purgeBidSide b).asks = b.asks := by
  rcases purgeBidSide_cases b with ⟨heq, _⟩ | ⟨p, o, l, rest, hb, hfk, heq, _⟩
  · rw [heq]
  · rw [heq, purge_cancel_bid_char hinv hb]

theorem purgeAskSide_bids {b : Orderbook} (hinv : CoreInv b) :
    (purgeAskSide b).bids = b.bids := by
  rcases purgeAskSide_cases b with ⟨heq, _⟩ | ⟨p, o, l, rest, ha, hfk, heq, _⟩
  · rw [heq]
  · rw [heq, purge_cancel_ask_char hinv ha]

theorem purgeBidSide_noFAK_bids {b : Orderbook} (hinv : CoreInv b)
    (hfb : FAKBestHeadOnly b.bids) : NoFAKIn (ordersOf (purgeBidSide b).bids) := by
  rcases purgeBidSide_cases b with ⟨heq, _, hno⟩ | ⟨p, o, l, rest, hb, hfk, heq, _⟩
  · rw [heq]
    intro o' ho'
    obtain ⟨lv, hlv, hol⟩ := mem_ordersOf.1 ho'
    cases hbids : b.bids with
    | nil => rw [hbids] at hlv; simp at hlv
    | cons lv0 rest0 =>
      obtain ⟨p0, l0⟩ := lv0
      cases hl0 : l0 with
      | nil =>
        exfalso
        exact hinv.2.2.1 (p0, l0) (by rw [hbids]; simp) hl0
      | cons o0 t0 =>
        rw [hbids] at hlv
        rcases List.mem_cons.1 hlv with h' | h'
        · subst h'
          rw [hl0] at hol
          rcases List.mem_cons.1 hol with h'' | h''
          · subst h''
            exact hno p0 o' t0 rest0 (by rw [hbids, hl0])
          · have := hfb.1 (p0, l0) (by rw [hbids]; simp)
            rw [hl0] at this
            exact this o' (by simpa using h'')
        · have := hfb.2 lv (by rw [hbids]; simpa using h')
          exact this o' hol
  · rw [heq, purge_cancel_bid_char hinv hb]
    simp only [ordersOf_reinsertLevel]
    intro o' ho'
    rcases List.mem_append.1 ho' with h' | h'
    · have := hfb.1 (p, o :: l) (by rw [hb]; simp)
      exact this o' (by simpa using h')
    · obtain ⟨lv, hlv, hol⟩ := mem_ordersOf.1 h'
      have := hfb.2 lv (by rw [hb]; simpa using hlv)
      exact this o' hol

theorem purgeAskSide_noFAK_asks {b : Orderbook} (hinv : CoreInv b)
    (hfa : FAKBestHeadOnly b.asks) : NoFAKIn (ordersOf (purgeAskSide b).asks) := by
  rcases purgeAskSide_cases b with ⟨heq, _, hno⟩ | ⟨p, o, l, rest, ha, hfk, heq, _⟩
  · rw [heq]
    intro o' ho'
    obtain ⟨lv, hlv, hol⟩ := mem_ordersOf.1 ho'
    cases hasks : b.asks with
    | nil => rw [hasks] at hlv; simp at hlv
    | cons lv0 rest0 =>
      obtain ⟨p0, l0⟩ := lv0
      cases hl0 : l0 with
      | nil =>
        exfalso
        exact hinv.2.2.2.1 (p0, l0) (by rw [hasks]; simp) hl0
      | cons o0 t0 =>
        rw [hasks] at hlv
        rcases List.mem_cons.1 hlv with h' | h'
        · subst h'
          rw [hl0] at hol
          rcases List.mem_cons.1 hol with h'' | h''
          · subst h''
            exact hno p0 o' t0 rest0 (by rw [hasks, hl0])
          · have := hfa.1 (p0, l0) (by rw [hasks]; simp)
            rw [hl0] at this
            exact this o' (by simpa using h'')
        · have := hfa.2 lv (by rw [hasks]; simpa using h')
          exact this o' hol
  · rw [heq, purge_cancel_ask_char hinv ha]
    simp only [ordersOf_reinsertLevel]
    intro o' ho'
    rcases List.mem_append.1 ho' with h' | h'
    · have := hfa.1 (p, o :: l) (by rw [ha]; simp)
      exact this o' (by simpa using h')
    · obtain ⟨lv, hlv, hol⟩ := mem_ordersOf.1 h'
      have := hfa.2 lv (by rw [ha]; simpa using hlv)
      exact this o' hol

theorem purgeFAK_NoFAK {b : Orderbook} (hinv : CoreInv b) (hfak : FAKInv b) :
    NoFAKBook (purgeFAK b) := by
  rw [purgeFAK_eq]
  have hinv1 : CoreInv (purgeBidSide b) := purgeBidSide_CoreInv hinv
  have hb1 : NoFAKIn (ordersOf (purgeBidSide b).bids) :=
    purgeBidSide_noFAK_bids hinv hfak.1
  have hfa1 : FAKBestHeadOnly (purgeBidSide b).asks := by
    rw [purgeBidSide_asks hinv]
    exact hfak.2
  have ha2 : NoFAKIn (ordersOf (purgeAskSide (purgeBidSide b)).asks) :=
    purgeAskSide_noFAK_asks hinv1 hfa1
  have hb2 : NoFAKIn (ordersOf (purgeAskSide (purgeBidSide b)).bids) := by
    rw [purgeAskSide_bids hinv1]
    exact hb1
  intro o ho
  unfold allOrders at ho
  rcases List.mem_append.1 ho with h | h
  · exact hb2 o h
  · exact ha2 o h

theorem purgedAskQty_congr {b1 b2 : Orderbook} (h : b1.asks = b2.asks) :
    purgedAskQty b1 = purgedAskQty b2 := by
  unfold purgedAskQty
  rw [h]

theorem purgeBidSide_totalQty {b : Orderbook} (hinv : CoreInv b) :
    totalQty (purgeBidSide b) + purgedBidQty b = totalQty b := by
  rcases purgeBidSide_cases b with ⟨heq, hq, _⟩ | ⟨p, o, l, rest, hb, hfk, heq, hq⟩
  · rw [heq, hq]
    omega
  · rw [heq, hq, purge_cancel_bid_char hinv hb]
    unfold totalQty allOrders
    rw [hb]
    simp only [ordersOf_reinsertLevel, ordersOf_cons, List.map_append, List.sum_append,
      List.map_cons, List.sum_cons]
    omega

theorem purgeAskSide_totalQty {b : Orderbook} (hinv : CoreInv b) :
    totalQty (purgeAskSide b) + purgedAskQty b = totalQty b := by
  rcases purgeAskSide_cases b with ⟨heq, hq, _⟩ | ⟨p, o, l, rest, ha, hfk, heq, hq⟩
  · rw [heq, hq]
    omega
  · rw [heq, hq, purge_cancel_ask_char hinv ha]
    unfold totalQty allOrders
    rw [ha]
    simp only [ordersOf_reinsertLevel, ordersOf_cons, List.map_append, List.sum_append,
      List.map_cons, List.sum_cons]
    omega

theorem purgeFAK_totalQty {b : Orderbook} (hinv : CoreInv b) :
    totalQty (purgeFAK b) + purgedQty b = totalQty b := by
  rw [purgeFAK_eq]
  have h1 := purgeBidSide_totalQty hinv
  have h2 := purgeAskSide_totalQty (purgeBidSide_CoreInv hinv)
  rw [purgedAskQty_congr (purgeBidSide_asks hinv)] at h2
  unfold purgedQty
  omega

theorem purgeBidSide_fifo {b : Orderbook} (hinv : CoreInv b) :
    ∀ s pr, fifoConsumed (levelOrders (sideLevels b s) pr)
      (levelOrders (sideLevels (purgeBidSide b) s) pr) := by
  rcases purgeBidSide_cases b with ⟨heq, _⟩ | ⟨p, o, l, rest, hb, hfk, heq, _⟩
  · rw [heq]
    exact fun s pr => fifoConsumed_refl _
  · rw [heq, purge_cancel_bid_char hinv hb]
    intro s pr
    cases s with
    | Sell => exact fifoConsumed_refl _
    | Buy =>
      show fifoConsumed (levelOrders b.bids pr) (levelOrders (reinsertLevel p l rest) pr)
      rw [hb]
      by_cases hpr : pr = p
      · subst hpr
        rw [levelOrders, if_pos rfl]
        have hnotmem : pr ∉ rest.map Prod.fst := by
          have hsb := hinv.1
          unfold SortedBids at hsb
          rw [hb] at hsb
          simp only [List.map_cons, List.pairwise_cons] at hsb
          intro hc
          have := hsb.1 pr hc
          omega
        by_cases hl : l = []
        · subst hl
          rw [show reinsertLevel pr ([] : List Order) rest = rest from rfl,
            levelOrders_eq_nil_of_not_mem_keys hnotmem]
          exact fifoConsumed_nil _
        · rw [levelOrders_reinsertLevel_self hl]
          exact fifoConsumed_tail _
      · rw [levelOrders, if_neg (fun hc => hpr hc.symm),
          levelOrders_reinsertLevel_other (fun hc => hpr hc.symm)]
        exact fifoConsumed_refl _

theorem purgeAskSide_fifo {b : Orderbook} (hinv : CoreInv b) :
    ∀ s pr, fifoConsumed (levelOrders (sideLevels b s) pr)
      (levelOrders (sideLevels (purgeAskSide b) s) pr) := by
  rcases purgeAskSide_cases b with ⟨heq, _⟩ | ⟨p, o, l, rest, ha, hfk, heq, _⟩
  · rw [heq]
    exact fun s pr => fifoConsumed_refl _
  · rw [heq, purge_cancel_ask_char hinv ha]
    intro s pr
    cases s with
    | Buy => exact fifoConsumed_refl _
    | Sell =>
      show fifoConsumed (levelOrders b.asks pr) (levelOrders (reinsertLevel p l rest) pr)
      rw [ha]
      by_cases hpr : pr = p
      · subst hpr
        rw [levelOrders, if_pos rfl]
        have hnotmem : pr ∉ rest.map Prod.fst := by
          have hsa := hinv.2.1
          unfold SortedAsks at hsa
          rw [ha] at hsa
          simp only [List.map_cons, List.pairwise_cons] at hsa
          intro hc
          have := hsa.1 pr hc
          omega
        by_cases hl : l = []
        · subst hl
          rw [show reinsertLevel pr ([] : List Order) rest = rest from rfl,
            levelOrders_eq_nil_of_not_mem_keys hnotmem]
          exact fifoConsumed_nil _
        · rw [levelOrders_reinsertLevel_self hl]
          exact fifoConsumed_tail _
      · rw [levelOrders, if_neg (fun hc => hpr hc.symm),
          levelOrders_reinsertLevel_other (fun hc => hpr hc.symm)]
        exact fifoConsumed_refl _

theorem purgeFAK_fifo {b : Orderbook} (hinv : CoreInv b) :
    ∀ s pr, fifoConsumed (levelOrders (sideLevels b s) pr)
      (levelOrders (sideLevels (purgeFAK b) s) pr) := by
  rw [purgeFAK_eq]
  intro s pr
  exact fifoConsumed_trans (purgeBidSide_fifo hinv s pr)
    (purgeAskSide_fifo (purgeBidSide_CoreInv hinv) s pr)

/-! ## Lemmas about order insertion (`AddOrder` before matching) -/

theorem insertOrder_buy {b : Orderbook} {o : Order} (h : o.side = Side.Buy) :
    insertOrder b o = { b with
      bids := insertBidLevels o b.bids,
      orders := (o.orderId, ⟨o.side, o.price, o.orderType⟩) :: b.orders } := by
  obtain ⟨ot, oid, os, op, oi, orq⟩ := o
  simp only at h
  subst h
  rfl

theorem insertOrder_sell {b : Orderbook} {o : Order} (h : o.side = Side.Sell) :
    insertOrder b o = { b with
      asks := insertAskLevels o b.asks,
      orders := (o.orderId, ⟨o.side, o.price, o.orderType⟩) :: b.orders } := by
  obtain ⟨ot, oid, os, op, oi, orq⟩ := o
  simp only at h
  subst h
  rfl

theorem insertOrder_orders (b : Orderbook) (o : Order) :
    (insertOrder b o).orders = (o.orderId, ⟨o.side, o.price, o.orderType⟩) :: b.orders := by
  cases h : o.side with
  | Buy => rw [insertOrder_buy h, h]
  | Sell => rw [insertOrder_sell h, h]

theorem allOrders_insertOrder_perm (b : Orderbook) (o : Order) :
    (allOrders (insertOrder b o)).Perm (o :: allOrders b) := by
  cases h : o.side with
  | Buy =>
    rw [insertOrder_buy h]
    unfold allOrders
    have h1 := (ordersOf_insertBidLevels_perm o b.bids).append_right (ordersOf b.asks)
    simpa using h1
  | Sell =>
    rw [insertOrder_sell h]
    unfold allOrders
    have h1 := (ordersOf_insertAskLevels_perm o b.asks).append_left (ordersOf b.bids)
    refine h1.trans ?_
    exact List.perm_middle

theorem totalQty_insertOrder (b : Orderbook) (o : Order) :
    totalQty (insertOrder b o) = o.remainingQuantity + totalQty b := by
  unfold totalQty
  have h := (allOrders_insertOrder_perm b o).map Order.remainingQuantity
  rw [h.sum_eq]
  simp

theorem bookSize_insertOrder (b : Orderbook) (o : Order) :
    bookSize (insertOrder b o) = bookSize b + 1 := by
  have h1 : bookSize (insertOrder b o) = (allOrders (insertOrder b o)).length := by
    unfold bookSize allOrders
    simp
  have h2 : bookSize b = (allOrders b).length := by
    unfold bookSize allOrders
    simp
  rw [h1, h2, (allOrders_insertOrder_perm b o).length_eq]
  simp

/-- A fresh id is not carried by any resting order. -/
theorem not_mem_ids_of_not_contains {b : Orderbook} {o : Order}
    (hinv : CoreInv b) (hc : containsId b.orders o.orderId = false) :
    ∀ w ∈ allOrders b, w.orderId ≠ o.orderId := by
  intro w hw hcid
  have hlook := hinv.2.2.2.2.2.2.1 w hw
  rw [hcid] at hlook
  rw [(containsId_eq_false_iff _ _).1 hc] at hlook
  cases hlook

theorem insertOrder_CoreInv {b : Orderbook} {o : Order} (hinv : CoreInv b)
    (hc : containsId b.orders o.orderId = false) : CoreInv (insertOrder b o) := by
  obtain ⟨hsb, hsa, hneb, hnea, hpb, hpa, hidx, hnd, hndk⟩ := hinv
  have hfresh : ∀ w ∈ allOrders b, w.orderId ≠ o.orderId :=
    not_mem_ids_of_not_contains ⟨hsb, hsa, hneb, hnea, hpb, hpa, hidx, hnd, hndk⟩ hc
  have hkeys : ∀ e ∈ b.orders, e.1 ≠ o.orderId :=
    (lookupOrder_eq_none_iff _ _).1 ((containsId_eq_false_iff _ _).1 hc)
  have hidx' : IndexCorrect (insertOrder b o) := by
    intro w hw
    rw [insertOrder_orders]
    have hw' := (allOrders_insertOrder_perm b o).mem_iff.1 hw
    rcases List.mem_cons.1 hw' with h' | h'
    · subst h'
      exact lookupOrder_cons_eq rfl
    · rw [lookupOrder_cons_ne (by simpa using fun hcc => hfresh w h' hcc.symm)]
      exact hidx w h'
  have hnd' : NodupIds (insertOrder b o) := by
    unfold NodupIds at hnd ⊢
    rw [((allOrders_insertOrder_perm b o).map Order.orderId).nodup_iff]
    simp only [List.map_cons, List.nodup_cons]
    refine ⟨?_, hnd⟩
    intro hcc
    obtain ⟨w, hw, hwid⟩ := List.mem_map.1 hcc
    exact hfresh w hw hwid
  have hndk' : ((insertOrder b o).orders.map Prod.fst).Nodup := by
    rw [insertOrder_orders]
    simp only [List.map_cons, List.nodup_cons]
    refine ⟨?_, hndk⟩
    intro hcc
    obtain ⟨e, he, heid⟩ := List.mem_map.1 hcc
    exact hkeys e he heid
  cases h : o.side with
  | Buy =>
    rw [insertOrder_buy h] at hidx' hnd' hndk' ⊢
    exact ⟨SortedBids_insertBidLevels hsb, hsa, NoEmptyLevels_insertBidLevels hneb, hnea,
      SidePricesOK_insertBidLevels hpb h, hpa, hidx', hnd', hndk'⟩
  | Sell =>
    rw [insertOrder_sell h] at hidx' hnd' hndk' ⊢
    exact ⟨hsb, SortedAsks_insertAskLevels hsa, hneb, NoEmptyLevels_insertAskLevels hnea,
      hpb, SidePricesOK_insertAskLevels hpa h, hidx', hnd', hndk'⟩

theorem FAKBestHeadOnly_of_noFAK {ls : Levels} (h : NoFAKIn (ordersOf ls)) :
    FAKBestHeadOnly ls := by
  constructor
  · intro lv hlv
    have hlv' : lv ∈ ls := by
      cases ls with
      | nil => simp at hlv
      | cons r rs => simp at hlv; simp [hlv]
    exact NoFAKIn_tail (fun o ho => h o (mem_ordersOf.2 ⟨lv, hlv', ho⟩))
  · intro lv hlv o ho
    exact h o (mem_ordersOf.2 ⟨lv, List.mem_of_mem_tail hlv, ho⟩)

theorem NoFAK_sides {b : Orderbook} (h : NoFAKBook b) :
    NoFAKIn (ordersOf b.bids) ∧ NoFAKIn (ordersOf b.asks) :=
  ⟨fun o ho => h o (List.mem_append_left _ ho),
   fun o ho => h o (List.mem_append_right _ ho)⟩

theorem CanMatch_buy_inv {b : Orderbook} {price : Int}
    (h : b.CanMatch Side.Buy price = true) :
    ∃ bestAsk l ra, b.asks = (bestAsk, l) :: ra ∧ bestAsk ≤ price := by
  unfold Orderbook.CanMatch at h
  cases hasks : b.asks with
  | nil => rw [hasks] at h; simp at h
  | cons lv ra =>
    obtain ⟨p, l⟩ := lv
    rw [hasks] at h
    exact ⟨p, l, ra, rfl, of_decide_eq_true h⟩

theorem CanMatch_sell_inv {b : Orderbook} {price : Int}
    (h : b.CanMatch Side.Sell price = true) :
    ∃ bestBid l rb, b.bids = (bestBid, l) :: rb ∧ price ≤ bestBid := by
  unfold Orderbook.CanMatch at h
  cases hbids : b.bids with
  | nil => rw [hbids] at h; simp at h
  | cons lv rb =>
    obtain ⟨p, l⟩ := lv
    rw [hbids] at h
    exact ⟨p, l, rb, rfl, of_decide_eq_true h⟩

theorem insertOrder_FAKInv {b : Orderbook} {o : Order} (hwf : wfBook b)
    (hcm : o.orderType = OrderType.FillAndKill → b.CanMatch o.side o.price = true) :
    FAKInv (insertOrder b o) := by
  obtain ⟨hinv, hu, hnf⟩ := hwf
  by_cases hft : o.orderType = OrderType.FillAndKill
  · cases hside : o.side with
    | Buy =>
      obtain ⟨bestAsk, la, ra, hasks, hle⟩ := CanMatch_buy_inv (hside ▸ hcm hft)
      have hkeys : ∀ q ∈ b.bids.map Prod.fst, q < o.price := by
        intro q hq
        cases hbids : b.bids with
        | nil => rw [hbids] at hq; simp at hq
        | cons lv rbids =>
          have hux := hu lv (by rw [hbids]; simp) (bestAsk, la) (by rw [hasks]; simp)
          rw [hbids] at hq
          simp at hq
          rcases hq with hq | hq
          · omega
          · have hsb := hinv.1
            unfold SortedBids at hsb
            rw [hbids] at hsb
            simp only [List.map_cons, List.pairwise_cons] at hsb
            have := hsb.1 q (by simpa using hq)
            omega
      rw [insertOrder_buy hside]
      constructor
      · show FAKBestHeadOnly (insertBidLevels o b.bids)
        rw [insertBidLevels_front hkeys]
        constructor
        · intro lv hlv
          simp at hlv
          subst hlv
          intro w hw
          simp at hw
        · intro lv hlv o' ho'
          simp at hlv
          exact (NoFAK_sides hnf).1 o' (mem_ordersOf.2 ⟨lv, hlv, ho'⟩)
      · exact FAKBestHeadOnly_of_noFAK (NoFAK_sides hnf).2
    | Sell =>
      obtain ⟨bestBid, lb, rb, hbids, hle⟩ := CanMatch_sell_inv (hside ▸ hcm hft)
      have hkeys : ∀ q ∈ b.asks.map Prod.fst, o.price < q := by
        intro q hq
        cases hasks : b.asks with
        | nil => rw [hasks] at hq; simp at hq
        | cons lv rasks =>
          have hux := hu (bestBid, lb) (by rw [hbids]; simp) lv (by rw [hasks]; simp)
          rw [hasks] at hq
          simp at hq
          rcases hq with hq | hq
          · omega
          · have hsa := hinv.2.1
            unfold SortedAsks at hsa
            rw [hasks] at hsa
            simp only [List.map_cons, List.pairwise_cons] at hsa
            have := hsa.1 q (by simpa using hq)
            omega
      rw [insertOrder_sell hside]
      constructor
      · exact FAKBestHeadOnly_of_noFAK (NoFAK_sides hnf).1
      · show FAKBestHeadOnly (insertAskLevels o b.asks)
        rw [insertAskLevels_front hkeys]
        constructor
        · intro lv hlv
          simp at hlv
          subst hlv
          intro w hw
          simp at hw
        · intro lv hlv o' ho'
          simp at hlv
          exact (NoFAK_sides hnf).2 o' (mem_ordersOf.2 ⟨lv, hlv, ho'⟩)
  · have hnoall : ∀ w ∈ allOrders (insertOrder b o),
        w.orderType ≠ OrderType.FillAndKill := by
      intro w hw
      rcases List.mem_cons.1 ((allOrders_insertOrder_perm b o).mem_iff.1 hw) with h' | h'
      · subst h'; exact hft
      · exact hnf w h'
    exact ⟨FAKBestHeadOnly_of_noFAK (fun w hw => hnoall w (List.mem_append_left _ hw)),
           FAKBestHeadOnly_of_noFAK (fun w hw => hnoall w (List.mem_append_right _ hw))⟩

/-! ## Characterizations of the public operations -/

theorem AddOrder_dup {b : Orderbook} {o : Order}
    (h : containsId b.orders o.orderId = true) : b.AddOrder o = .ok ([], b) := by
  unfold Orderbook.AddOrder
  rw [if_pos h]

theorem AddOrder_fak_reject {b : Orderbook} {o : Order}
    (h1 : containsId b.orders o.orderId = false)
    (h2 : o.orderType = OrderType.FillAndKill) (h3 : b.CanMatch o.side o.price = false) :
    b.AddOrder o = .ok ([], b) := by
  unfold Orderbook.AddOrder
  rw [if_neg (by rw [h1]; simp), if_pos ⟨h2, h3⟩]

theorem AddOrder_accepted {b : Orderbook} {o : Order}
    (h1 : containsId b.orders o.orderId = false)
    (h2 : ¬(o.orderType = OrderType.FillAndKill ∧ b.CanMatch o.side o.price = false)) :
    b.AddOrder o = (insertOrder b o).MatchOrders := by
  unfold Orderbook.AddOrder
  rw [if_neg (by rw [h1]; simp), if_neg h2]

theorem MatchOrders_char (b : Orderbook) :
    ∃ ts b2, matchLoopFuel (bookSize b) b = .ok (ts, b2) ∧
      b.MatchOrders = .ok (ts, purgeFAK b2) := by
  obtain ⟨ts, b2, h⟩ := matchLoopFuel_ok (bookSize b) b
  refine ⟨ts, b2, h, ?_⟩
  unfold Orderbook.MatchOrders
  rw [h]

theorem MatchOrder_unknown {b : Orderbook} {m : OrderModify}
    (h : lookupOrder b.orders m.orderId = none) : b.MatchOrder m = .ok ([], b) := by
  unfold Orderbook.MatchOrder
  rw [h]

theorem MatchOrder_known {b : Orderbook} {m : OrderModify} {e : OrderEntry}
    (h : lookupOrder b.orders m.orderId = some e) :
    b.MatchOrder m = (b.CancelOrder m.orderId).AddOrder (m.ToOrderPointer e.orderType) := by
  unfold Orderbook.MatchOrder
  rw [h]

theorem AddOrder_ok (b : Orderbook) (o : Order) :
    ∃ ts b', b.AddOrder o = .ok (ts, b') := by
  by_cases h1 : containsId b.orders o.orderId = true
  · exact ⟨[], b, AddOrder_dup h1⟩
  · have h1' : containsId b.orders o.orderId = false := by
      cases hc : containsId b.orders o.orderId
      · rfl
      · exact absurd hc h1
    by_cases h2 : o.orderType = OrderType.FillAndKill ∧ b.CanMatch o.side o.price = false
    · exact ⟨[], b, AddOrder_fak_reject h1' h2.1 h2.2⟩
    · obtain ⟨ts, b2, hloop, hmo⟩ := MatchOrders_char (insertOrder b o)
      exact ⟨ts, purgeFAK b2, by rw [AddOrder_accepted h1' h2, hmo]⟩

theorem MatchOrder_ok (b : Orderbook) (m : OrderModify) :
    ∃ ts b', b.MatchOrder m = .ok (ts, b') := by
  cases hlook : lookupOrder b.orders m.orderId with
  | none => exact ⟨[], b, MatchOrder_unknown hlook⟩
  | some e =>
    obtain ⟨ts, b', h⟩ := AddOrder_ok (b.CancelOrder m.orderId) (m.ToOrderPointer e.orderType)
    exact ⟨ts, b', by rw [MatchOrder_known hlook, h]⟩

/-- Submission preserves well-formedness: the central preservation theorem. -/
theorem AddOrder_wf {b b' : Orderbook} {o : Order} {ts : List Trade}
    (hwf : wfBook b) (h : b.AddOrder o = .ok (ts, b')) : wfBook b' := by
  by_cases h1 : containsId b.orders o.orderId = true
  · rw [AddOrder_dup h1] at h
    simp only [Except.ok.injEq, Prod.mk.injEq] at h
    rw [← h.2]
    exact hwf
  · have h1' : containsId b.orders o.orderId = false := by
      cases hc : containsId b.orders o.orderId
      · rfl
      · exact absurd hc h1
    by_cases h2 : o.orderType = OrderType.FillAndKill ∧ b.CanMatch o.side o.price = false
    · rw [AddOrder_fak_reject h1' h2.1 h2.2] at h
      simp only [Except.ok.injEq, Prod.mk.injEq] at h
      rw [← h.2]
      exact hwf
    · rw [AddOrder_accepted h1' h2] at h
      obtain ⟨ts0, b2, hloop, hmo⟩ := MatchOrders_char (insertOrder b o)
      rw [hmo] at h
      simp only [Except.ok.injEq, Prod.mk.injEq] at h
      rw [← h.2]
      have hcm : o.orderType = OrderType.FillAndKill → b.CanMatch o.side o.price = true := by
        intro hft
        cases hcmv : b.CanMatch o.side o.price
        · exact absurd ⟨hft, hcmv⟩ h2
        · rfl
      have hinv1 := insertOrder_CoreInv hwf.1 h1'
      have hfak1 := insertOrder_FAKInv hwf hcm
      have hinv2 := matchLoopFuel_CoreInv hinv1 hloop
      have hfak2 := matchLoopFuel_FAKInv hfak1 hloop
      have hu2 := matchLoopFuel_uncrossed hinv1 (Nat.le_refl _) hloop
      exact ⟨purgeFAK_CoreInv hinv2, purgeFAK_Uncrossed hinv2 hu2, purgeFAK_NoFAK hinv2 hfak2⟩

theorem MatchOrder_wf {b b' : Orderbook} {m : OrderModify} {ts : List Trade}
    (hwf : wfBook b) (h : b.MatchOrder m = .ok (ts, b')) : wfBook b' := by
  cases hlook : lookupOrder b.orders m.orderId with
  | none =>
    rw [MatchOrder_unknown hlook] at h
    simp only [Except.ok.injEq, Prod.mk.injEq] at h
    rw [← h.2]
    exact hwf
  | some e =>
    rw [MatchOrder_known hlook] at h
    exact AddOrder_wf (CancelOrder_wf m.orderId hwf) h

/-- The empty book is well-formed; together with the preservation theorems,
every book reachable through the public operations satisfies `wfBook`. -/
theorem wfBook_empty : wfBook { bids := [], asks := [], orders := [] } := by decide

/-! ## Trade-leg equality along the matching loop (used for claim C3) -/

theorem matchStep_stepped_legs {b : Orderbook} {t : Trade} {b' : Orderbook}
    (h : matchStep b = .stepped t b') : t.bidTrade.quantity = t.askTrade.quantity := by
  obtain ⟨bp, bid, bl, rb, ap, ask, al, ra, q, _, _, _, _, ht, _⟩ := matchStep_stepped_inv h
  rw [ht]
  rfl

theorem matchLoopFuel_legs_eq {n : Nat} {b b2 : Orderbook} {ts : List Trade}
    (h : matchLoopFuel n b = .ok (ts, b2)) :
    ∀ t ∈ ts, t.bidTrade.quantity = t.askTrade.quantity := by
  induction n generalizing b ts with
  | zero =>
    obtain ⟨h1, _⟩ := matchLoopFuel_zero_inv h
    subst h1
    intro t ht
    simp at ht
  | succ n ih =>
    cases hs : matchStep b with
    | done =>
      obtain ⟨h1, _⟩ := matchLoopFuel_done_inv hs h
      subst h1
      intro t ht
      simp at ht
    | failed e => exact absurd hs matchStep_no_fail
    | stepped t' b' =>
      obtain ⟨ts', hrec, hts⟩ := matchLoopFuel_stepped_inv hs h
      subst hts
      intro t ht
      rcases List.mem_cons.1 ht with h1 | h1
      · subst h1
        exact matchStep_stepped_legs hs
      · exact ih hrec t h1

theorem tradesLegsSum_eq_two_mul {ts : List Trade}
    (h : ∀ t ∈ ts, t.bidTrade.quantity = t.askTrade.quantity) :
    tradesLegsSum ts = 2 * tradesQtySum ts := by
  induction ts with
  | nil => rfl
  | cons t rest ih =>
    unfold tradesLegsSum tradesQtySum at *
    simp only [List.map_cons, List.sum_cons]
    have h1 := h t (List.mem_cons_self t rest)
    have h2 := ih (fun t' ht' => h t' (List.mem_cons_of_mem t ht'))
    omega

/-! ## The claims -/

/-- **C2** — No self-crossing residue: on any well-formed book, after
`AddOrder` returns, after `CancelOrder` returns, and after `MatchOrder`
(modify) returns, whenever both sides are non-empty the best bid price is
strictly below the best ask price (`Uncrossed`). -/
theorem claim_C2_no_cross_residue (b : Orderbook) (o : Order) (c : Nat) (m : OrderModify)
    (hwf : wfBook b) :
    (∀ ts b', b.AddOrder o = .ok (ts, b') → Uncrossed b') ∧
    Uncrossed (b.CancelOrder c) ∧
    (∀ ts b', b.MatchOrder m = .ok (ts, b') → Uncrossed b') :=
  ⟨fun _ _ h => (AddOrder_wf hwf h).2.1,
   (CancelOrder_wf c hwf).2.1,
   fun _ _ h => (MatchOrder_wf hwf h).2.1⟩

theorem claim_C2_no_cross_residue_witness :
    Uncrossed sampleBookBid6 ∧
    Uncrossed (sampleBookBid.CancelOrder 1) ∧
    Uncrossed sampleBookMod :=
  ⟨(claim_C2_no_cross_residue sampleBookBid sampleSell4 1 sampleModify (by decide)).1
     [sampleTrade4] sampleBookBid6 (by decide),
   (claim_C2_no_cross_residue sampleBookBid sampleSell4 1 sampleModify (by decide)).2.1,
   (claim_C2_no_cross_residue sampleBookBid sampleSell4 1 sampleModify (by decide)).2.2
     [] sampleBookMod (by decide)⟩

/-- **C4** — Immediate orders never rest: on any well-formed book, after any
`AddOrder` call returns, no fill-and-kill order remains anywhere in the book
(`NoFAKBook`): a crossing FAK order's unexecuted remainder is purged by the
post-matching pass before the call returns, and a non-crossing FAK order is
rejected outright. -/
theorem claim_C4_immediate_never_rests (b : Orderbook) (o : Order) (ts : List Trade)
    (b' : Orderbook) (hwf : wfBook b) (h : b.AddOrder o = .ok (ts, b')) :
    NoFAKBook b' :=
  (AddOrder_wf hwf h).2.2

theorem claim_C4_immediate_never_rests_witness : NoFAKBook sampleBookBid90 :=
  claim_C4_immediate_never_rests sampleBookTwo sampleFAKBuy [sampleTradeFAK]
    sampleBookBid90 (by decide) (by decide)

/-- **C7** — Rejected inputs are silent no-ops: submitting a duplicate order
id, cancelling an unknown id, modifying an unknown id, and submitting a
fill-and-kill order with no available cross each return an empty trade list
(or just return, for cancel) without error and leave the book unchanged;
and cancelling the same id twice in a row is safe — the second call is a
no-op. -/
theorem claim_C7_silent_noops (b : Orderbook) (o : Order) (c : Nat) (m : OrderModify)
    (hwf : wfBook b) :
    (containsId b.orders o.orderId = true → b.AddOrder o = .ok ([], b)) ∧
    (lookupOrder b.orders c = none → b.CancelOrder c = b) ∧
    (lookupOrder b.orders m.orderId = none → b.MatchOrder m = .ok ([], b)) ∧
    (containsId b.orders o.orderId = false → o.orderType = OrderType.FillAndKill →
      b.CanMatch o.side o.price = false → b.AddOrder o = .ok ([], b)) ∧
    (b.CancelOrder c).CancelOrder c = b.CancelOrder c := by
  obtain ⟨hsb, hsa, hneb, hnea, hpb, hpa, hidx, hnd, hndk⟩ := hwf.1
  refine ⟨fun h => AddOrder_dup h, fun h => CancelOrder_unknown h,
    fun h => MatchOrder_unknown h, fun h1 h2 h3 => AddOrder_fak_reject h1 h2 h3, ?_⟩
  cases hlook : lookupOrder b.orders c with
  | none => rw [CancelOrder_unknown hlook, CancelOrder_unknown hlook]
  | some e =>
    have horders : (b.CancelOrder c).orders = eraseId b.orders c := by
      cases hes : e.side with
      | Buy => rw [CancelOrder_known_buy hlook hes]
      | Sell => rw [CancelOrder_known_sell hlook hes]
    have hlook2 : lookupOrder (b.CancelOrder c).orders c = none := by
      rw [horders]
      exact lookupOrder_eraseId_self hndk
    exact CancelOrder_unknown hlook2

theorem claim_C7_silent_noops_witness :
    sampleBookBid.AddOrder sampleDup = .ok ([], sampleBookBid) ∧
    sampleBookBid.CancelOrder 99 = sampleBookBid ∧
    sampleBookBid.MatchOrder { orderId := 99, side := Side.Buy, price := 1, quantity := 1 }
      = .ok ([], sampleBookBid) ∧
    sampleBookBid.AddOrder sampleFAKFar = .ok ([], sampleBookBid) ∧
    (sampleBookBid.CancelOrder 1).CancelOrder 1 = sampleBookBid.CancelOrder 1 :=
  ⟨(claim_C7_silent_noops sampleBookBid sampleDup 99
      { orderId := 99, side := Side.Buy, price := 1, quantity := 1 } (by decide)).1 (by decide),
   (claim_C7_silent_noops sampleBookBid sampleDup 99
      { orderId := 99, side := Side.Buy, price := 1, quantity := 1 } (by decide)).2.1 (by decide),
   (claim_C7_silent_noops sampleBookBid sampleDup 99
      { orderId := 99, side := Side.Buy, price := 1, quantity := 1 } (by decide)).2.2.1 (by decide),
   (claim_C7_silent_noops sampleBookBid sampleFAKFar 1
      { orderId := 99, side := Side.Buy, price := 1, quantity := 1 } (by decide)).2.2.2.1
     (by decide) (by decide) (by decide),
   (claim_C7_silent_noops sampleBookBid sampleFAKFar 1
      { orderId := 99, side := Side.Buy, price := 1, quantity := 1 } (by decide)).2.2.2.2⟩

/-- **C8** — Over-fill is fatal and unreachable: `Order.Fill` of more than the
remaining quantity returns the error (`throw` in the source) rather than
clamping; a successful fill never increases the remaining quantity and keeps
the initial quantity; and the matching machinery never takes the fatal
branch — the step function never yields `failed` and the loop, and hence
`AddOrder`, always returns `.ok`. -/
theorem claim_C8_overfill_fatal_unreachable (o : Order) (q : Nat) (b : Orderbook) (n : Nat) :
    (q > o.remainingQuantity →
      o.Fill q = .error "Cannot fill more than the remaining quantity") ∧
    (∀ o', o.Fill q = .ok o' →
      o'.remainingQuantity ≤ o.remainingQuantity ∧ o'.initialQuantity = o.initialQuantity) ∧
    (∀ e, matchStep b ≠ .failed e) ∧
    (∃ ts b2, matchLoopFuel n b = .ok (ts, b2)) ∧
    (∃ ts b', b.AddOrder o = .ok (ts, b')) := by
  refine ⟨?_, ?_, fun _ => matchStep_no_fail, matchLoopFuel_ok n b, AddOrder_ok b o⟩
  · intro h
    unfold Order.Fill
    rw [if_pos h]
  · intro o' h
    unfold Order.Fill at h
    by_cases hq : q > o.remainingQuantity
    · rw [if_pos hq] at h
      exact absurd h (by simp)
    · rw [if_neg hq] at h
      simp only [Except.ok.injEq] at h
      rw [← h]
      exact ⟨Nat.sub_le _ _, rfl⟩

theorem claim_C8_overfill_fatal_unreachable_witness :
    sampleBid10.Fill 20 = .error "Cannot fill more than the remaining quantity" ∧
    sampleBid7.remainingQuantity ≤ sampleBid10.remainingQuantity ∧
    sampleBid7.initialQuantity = sampleBid10.initialQuantity ∧
    matchStep sampleBookCross ≠ .failed "boom" ∧
    (∃ ts b2, matchLoopFuel 2 sampleBookCross = .ok (ts, b2)) ∧
    (∃ ts b', sampleBookCross.AddOrder sampleBid10 = .ok (ts, b')) :=
  ⟨(claim_C8_overfill_fatal_unreachable sampleBid10 20 sampleBookCross 2).1 (by decide),
   ((claim_C8_overfill_fatal_unreachable sampleBid10 3 sampleBookCross 2).2.1
      sampleBid7 (by decide)).1,
   ((claim_C8_overfill_fatal_unreachable sampleBid10 3 sampleBookCross 2).2.1
      sampleBid7 (by decide)).2,
   (claim_C8_overfill_fatal_unreachable sampleBid10 3 sampleBookCross 2).2.2.1 "boom",
   (claim_C8_overfill_fatal_unreachable sampleBid10 3 sampleBookCross 2).2.2.2.1,
   (claim_C8_overfill_fatal_unreachable sampleBid10 3 sampleBookCross 2).2.2.2.2⟩

/-- **C9** — No empty levels: on any well-formed book, after `AddOrder`,
`CancelOrder` and `MatchOrder` (modify), every price level present on either
side holds at least one order (`NoEmptyLevels` on both sides). -/
theorem claim_C9_no_empty_levels (b : Orderbook) (o : Order) (c : Nat) (m : OrderModify)
    (hwf : wfBook b) :
    (∀ ts b', b.AddOrder o = .ok (ts, b') →
      NoEmptyLevels b'.bids ∧ NoEmptyLevels b'.asks) ∧
    (NoEmptyLevels (b.CancelOrder c).bids ∧ NoEmptyLevels (b.CancelOrder c).asks) ∧
    (∀ ts b', b.MatchOrder m = .ok (ts, b') →
      NoEmptyLevels b'.bids ∧ NoEmptyLevels b'.asks) :=
  ⟨fun _ _ h => ⟨(AddOrder_wf hwf h).1.2.2.1, (AddOrder_wf hwf h).1.2.2.2.1⟩,
   ⟨(CancelOrder_wf c hwf).1.2.2.1, (CancelOrder_wf c hwf).1.2.2.2.1⟩,
   fun _ _ h => ⟨(MatchOrder_wf hwf h).1.2.2.1, (MatchOrder_wf hwf h).1.2.2.2.1⟩⟩

theorem claim_C9_no_empty_levels_witness :
    (NoEmptyLevels sampleBookAsk6.bids ∧ NoEmptyLevels sampleBookAsk6.asks) ∧
    (NoEmptyLevels (sampleBookBid4.CancelOrder 1).bids ∧
      NoEmptyLevels (sampleBookBid4.CancelOrder 1).asks) :=
  ⟨(claim_C9_no_empty_levels sampleBookBid4 sampleSell10 1 sampleModify (by decide)).1
     [sampleTrade4] sampleBookAsk6 (by decide),
   (claim_C9_no_empty_levels sampleBookBid4 sampleSell10 1 sampleModify (by decide)).2.1⟩

/-- **C10** — Matching terminates: the fuelled matching loop computes the same
result under any fuel of at least the number of resting orders (so the C++
loop, which this fuel bounds, terminates), every produced trade removed at
least one resting order, and `AddOrder` and `MatchOrder` always return a
value (they are total). -/
theorem claim_C10_matching_terminates (b : Orderbook) (o : Order) (m : OrderModify)
    (n k : Nat) (hn : bookSize b ≤ n) (hk : bookSize b ≤ k) :
    matchLoopFuel n b = matchLoopFuel k b ∧
    (∀ ts b2, matchLoopFuel n b = .ok (ts, b2) → bookSize b2 + ts.length ≤ bookSize b) ∧
    (∃ ts b', b.AddOrder o = .ok (ts, b')) ∧
    (∃ ts b', b.MatchOrder m = .ok (ts, b')) :=
  ⟨matchLoopFuel_fuel_irrelevant hn hk,
   fun _ _ h => matchLoopFuel_size h,
   AddOrder_ok b o,
   MatchOrder_ok b m⟩

theorem claim_C10_matching_terminates_witness :
    matchLoopFuel 2 sampleBookCross = matchLoopFuel 5 sampleBookCross ∧
    bookSize sampleBookBid7 + ([sampleTradeCross] : List Trade).length
      ≤ bookSize sampleBookCross ∧
    (∃ ts b', sampleBookCross.AddOrder sampleSell4 = .ok (ts, b')) ∧
    (∃ ts b', sampleBookCross.MatchOrder sampleModify = .ok (ts, b')) :=
  ⟨(claim_C10_matching_terminates sampleBookCross sampleSell4 sampleModify 2 5
      (by decide) (by decide)).1,
   (claim_C10_matching_terminates sampleBookCross sampleSell4 sampleModify 2 5
      (by decide) (by decide)).2.1 [sampleTradeCross] sampleBookBid7 (by decide),
   (claim_C10_matching_terminates sampleBookCross sampleSell4 sampleModify 2 5
      (by decide) (by decide)).2.2.1,
   (claim_C10_matching_terminates sampleBookCross sampleSell4 sampleModify 2 5
      (by decide) (by decide)).2.2.2⟩

/-- **C1** — Price-time priority: an accepted submission appends the order to
the tail of its price level's FIFO queue, and the matching pass run by
`AddOrder` only consumes orders from the front of each price-level queue —
every queue of the returned book equals the corresponding pre-matching queue
with some oldest (front) orders removed and at most the next one partially
filled (`fifoConsumed`), so an order is filled only after every older order
at its price on its side. -/
theorem claim_C1_price_time_priority (b : Orderbook) (o : Order) (ts : List Trade)
    (b' : Orderbook) (hwf : wfBook b)
    (h1 : containsId b.orders o.orderId = false)
    (h2 : ¬(o.orderType = OrderType.FillAndKill ∧ b.CanMatch o.side o.price = false))
    (h : b.AddOrder o = .ok (ts, b')) :
    levelOrders (sideLevels (insertOrder b o) o.side) o.price
      = levelOrders (sideLevels b o.side) o.price ++ [o] ∧
    ∀ s p, fifoConsumed (levelOrders (sideLevels (insertOrder b o) s) p)
      (levelOrders (sideLevels b' s) p) := by
  constructor
  · cases hside : o.side with
    | Buy =>
      rw [insertOrder_buy hside, hside]
      exact levelOrders_insertBidLevels_self hwf.1.1
    | Sell =>
      rw [insertOrder_sell hside, hside]
      exact levelOrders_insertAskLevels_self hwf.1.2.1
  · rw [AddOrder_accepted h1 h2] at h
    obtain ⟨ts0, b2, hloop, hmo⟩ := MatchOrders_char (insertOrder b o)
    rw [hmo] at h
    simp only [Except.ok.injEq, Prod.mk.injEq] at h
    rw [← h.2]
    have hinv1 := insertOrder_CoreInv hwf.1 h1
    have hinv2 := matchLoopFuel_CoreInv hinv1 hloop
    intro s p
    exact fifoConsumed_trans (matchLoopFuel_fifo hinv1 hloop s p) (purgeFAK_fifo hinv2 s p)

theorem claim_C1_price_time_priority_witness :
    levelOrders (sideLevels (insertOrder sampleBookBid sampleSell4) sampleSell4.side)
        sampleSell4.price
      = levelOrders (sideLevels sampleBookBid sampleSell4.side) sampleSell4.price
          ++ [sampleSell4] ∧
    fifoConsumed
      (levelOrders (sideLevels (insertOrder sampleBookBid sampleSell4) Side.Buy) 100)
      (levelOrders (sideLevels sampleBookBid6 Side.Buy) 100) :=
  ⟨(claim_C1_price_time_priority sampleBookBid sampleSell4 [sampleTrade4] sampleBookBid6
      (by decide) (by decide) (by decide) (by decide)).1,
   (claim_C1_price_time_priority sampleBookBid sampleSell4 [sampleTrade4] sampleBookBid6
      (by decide) (by decide) (by decide) (by decide)).2 Side.Buy 100⟩

/-- **C5** — Trade record contents: when both sides are non-empty and the best
bid does not price below the best ask, one matching step executes
`q = min(remaining bid, remaining ask)` against the two head orders, reduces
both remaining quantities by `q` (a fully filled head is popped and
deregistered), and records exactly one `Trade` whose bid leg carries the bid
order's id and own book price and whose ask leg carries the ask order's id
and own book price, both with quantity `q`. -/
theorem claim_C5_trade_record (b : Orderbook) (bp ap : Int) (bid ask : Order)
    (bl al : List Order) (rb ra : Levels) (q : Nat)
    (hb : b.bids = (bp, bid :: bl) :: rb) (ha : b.asks = (ap, ask :: al) :: ra)
    (hcross : ¬ bp < ap) (hq : q = min bid.remainingQuantity ask.remainingQuantity) :
    matchStep b = .stepped
      { bidTrade := { orderId := bid.orderId, price := bid.price, quantity := q },
        askTrade := { orderId := ask.orderId, price := ask.price, quantity := q } }
      { bids := reinsertLevel bp
          (if (filledOrder bid q).IsFilled then bl else filledOrder bid q :: bl) rb,
        asks := reinsertLevel ap
          (if (filledOrder ask q).IsFilled then al else filledOrder ask q :: al) ra,
        orders := if (filledOrder ask q).IsFilled
          then eraseId (if (filledOrder bid q).IsFilled
                        then eraseId b.orders bid.orderId else b.orders) ask.orderId
          else if (filledOrder bid q).IsFilled
               then eraseId b.orders bid.orderId else b.orders } ∧
    (filledOrder bid q).remainingQuantity = bid.remainingQuantity - q ∧
    (filledOrder ask q).remainingQuantity = ask.remainingQuantity - q :=
  ⟨matchStep_eq_stepped hb ha hcross hq, rfl, rfl⟩

theorem claim_C5_trade_record_witness :
    matchStep sampleBookCross = .stepped sampleTradeCross sampleBookBid7 ∧
    (filledOrder sampleBid10 3).remainingQuantity = sampleBid10.remainingQuantity - 3 ∧
    (filledOrder sampleAsk95 3).remainingQuantity = sampleAsk95.remainingQuantity - 3 :=
  claim_C5_trade_record sampleBookCross 100 95 sampleBid10 sampleAsk95 [] [] [] [] 3
    rfl rfl (by decide) (by decide)

/-- **C6** — Modify semantics: `MatchOrder` on an unknown id returns an empty
trade list and the unchanged book; on a known id it equals cancelling the
existing order and resubmitting a brand-new order with the same id, the
existing order's kind, and the caller-supplied side, price and quantity
(returning exactly that resubmission's trades); and the resubmitted order is
appended at the tail of its new price level's queue — queue position is never
preserved. -/
theorem claim_C6_modify_semantics (b : Orderbook) (m : OrderModify) (hwf : wfBook b) :
    (lookupOrder b.orders m.orderId = none → b.MatchOrder m = .ok ([], b)) ∧
    (∀ e, lookupOrder b.orders m.orderId = some e →
      b.MatchOrder m = (b.CancelOrder m.orderId).AddOrder
        { orderType := e.orderType, orderId := m.orderId, side := m.side,
          price := m.price, initialQuantity := m.quantity,
          remainingQuantity := m.quantity }) ∧
    (∀ e, lookupOrder b.orders m.orderId = some e →
      levelOrders (sideLevels (insertOrder (b.CancelOrder m.orderId)
          (m.ToOrderPointer e.orderType)) m.side) m.price
        = levelOrders (sideLevels (b.CancelOrder m.orderId) m.side) m.price
            ++ [m.ToOrderPointer e.orderType]) := by
  refine ⟨fun h => MatchOrder_unknown h, fun e h => MatchOrder_known h, fun e h => ?_⟩
  have hwfc := CancelOrder_wf m.orderId hwf
  cases hside : m.side with
  | Buy =>
    have hoside : (m.ToOrderPointer e.orderType).side = Side.Buy := hside
    rw [insertOrder_buy hoside]
    exact levelOrders_insertBidLevels_self hwfc.1.1
  | Sell =>
    have hoside : (m.ToOrderPointer e.orderType).side = Side.Sell := hside
    rw [insertOrder_sell hoside]
    exact levelOrders_insertAskLevels_self hwfc.1.2.1

theorem claim_C6_modify_semantics_witness :
    sampleBookBid.MatchOrder sampleModify = (sampleBookBid.CancelOrder 1).AddOrder
      { orderType := OrderType.GoodTillCancel, orderId := 1, side := Side.Buy,
        price := 101, initialQuantity := 5, remainingQuantity := 5 } ∧
    levelOrders (sideLevels (insertOrder (sampleBookBid.CancelOrder 1)
        (sampleModify.ToOrderPointer OrderType.GoodTillCancel)) Side.Buy) 101
      = levelOrders (sideLevels (sampleBookBid.CancelOrder 1) Side.Buy) 101
          ++ [sampleModify.ToOrderPointer OrderType.GoodTillCancel] :=
  ⟨(claim_C6_modify_semantics sampleBookBid sampleModify (by decide)).2.1
     ⟨Side.Buy, 100, OrderType.GoodTillCancel⟩ (by decide),
   (claim_C6_modify_semantics sampleBookBid sampleModify (by decide)).2.2
     ⟨Side.Buy, 100, OrderType.GoodTillCancel⟩ (by decide)⟩

/-- **C3** counterexample — the claimed strict decrease of the book's total
remaining quantity by the sum of trade quantities is false: submitting a
10-unit sell into a well-formed book holding a 4-unit bid trades 4 units, yet
the total resting quantity moves from 4 to 6 (it increases: the 6-unit
remainder of the incoming order rests), and neither against the pre-call book
(4) nor against the post-insertion book (14) does the difference equal the
traded sum (4). -/
theorem claim_C3_conservation_counterexample :
    wfBook sampleBookBid4 ∧
    sampleBookBid4.AddOrder sampleSell10 = .ok ([sampleTrade4], sampleBookAsk6) ∧
    tradesQtySum [sampleTrade4] = 4 ∧
    totalQty sampleBookBid4 = 4 ∧
    totalQty (insertOrder sampleBookBid4 sampleSell10) = 14 ∧
    totalQty sampleBookAsk6 = 6 ∧
    ¬ totalQty sampleBookAsk6 < totalQty sampleBookBid4 ∧
    totalQty sampleBookBid4 ≠ totalQty sampleBookAsk6 + tradesQtySum [sampleTrade4] ∧
    totalQty (insertOrder sampleBookBid4 sampleSell10)
      ≠ totalQty sampleBookAsk6 + tradesQtySum [sampleTrade4] := by
  decide

/-- **C3** (amended) — Quantity conservation, corrected: each trade's two legs
carry equal quantities (the bid order and the ask order lose the same
amount), and for an accepted submission the total remaining quantity of the
post-insertion book equals the returned book's total plus BOTH legs of every
trade (2x the per-trade quantity) plus the quantity discarded by the
fill-and-kill purge — the book's total does not simply decrease by the sum of
trade quantities. -/
theorem claim_C3_conservation_amended (b : Orderbook) (o : Order) (ts ts0 : List Trade)
    (b' b2 : Orderbook) (hwf : wfBook b)
    (h1 : containsId b.orders o.orderId = false)
    (h2 : ¬(o.orderType = OrderType.FillAndKill ∧ b.CanMatch o.side o.price = false))
    (hloop : matchLoopFuel (bookSize (insertOrder b o)) (insertOrder b o) = .ok (ts0, b2))
    (h : b.AddOrder o = .ok (ts, b')) :
    ts = ts0 ∧ b' = purgeFAK b2 ∧
    (∀ t ∈ ts, t.bidTrade.quantity = t.askTrade.quantity) ∧
    totalQty (insertOrder b o) = totalQty b' + tradesLegsSum ts + purgedQty b2 ∧
    tradesLegsSum ts = 2 * tradesQtySum ts := by
  have hmo : (insertOrder b o).MatchOrders = .ok (ts0, purgeFAK b2) := by
    unfold Orderbook.MatchOrders
    rw [hloop]
  rw [AddOrder_accepted h1 h2, hmo] at h
  simp only [Except.ok.injEq, Prod.mk.injEq] at h
  obtain ⟨hts, hb'⟩ := h
  have hinv1 := insertOrder_CoreInv hwf.1 h1
  have hinv2 := matchLoopFuel_CoreInv hinv1 hloop
  have htot := matchLoopFuel_totalQty hloop
  have hpur := purgeFAK_totalQty hinv2
  have hlegs := matchLoopFuel_legs_eq hloop
  refine ⟨hts.symm, hb'.symm, ?_, ?_, ?_⟩
  · rw [← hts]
    exact hlegs
  · rw [← hb', ← hts]
    omega
  · rw [← hts]
    exact tradesLegsSum_eq_two_mul hlegs

theorem claim_C3_conservation_amended_witness :
    sampleBookAsk6 = purgeFAK sampleBookAsk6 ∧
    sampleTrade4.bidTrade.quantity = sampleTrade4.askTrade.quantity ∧
    totalQty (insertOrder sampleBookBid4 sampleSell10)
      = totalQty sampleBookAsk6 + tradesLegsSum [sampleTrade4] + purgedQty sampleBookAsk6 ∧
    tradesLegsSum [sampleTrade4] = 2 * tradesQtySum [sampleTrade4] :=
  ⟨(claim_C3_conservation_amended sampleBookBid4 sampleSell10 [sampleTrade4] [sampleTrade4]
      sampleBookAsk6 sampleBookAsk6 (by decide) (by decide) (by decide) (by decide)
      (by decide)).2.1,
   (claim_C3_conservation_amended sampleBookBid4 sampleSell10 [sampleTrade4] [sampleTrade4]
      sampleBookAsk6 sampleBookAsk6 (by decide) (by decide) (by decide) (by decide)
      (by decide)).2.2.1 sampleTrade4 (List.mem_cons_self _ _),
   (claim_C3_conservation_amended sampleBookBid4 sampleSell10 [sampleTrade4] [sampleTrade4]
      sampleBookAsk6 sampleBookAsk6 (by decide) (by decide) (by decide) (by decide)
      (by decide)).2.2.2.1,
   (claim_C3_conservation_amended sampleBookBid4 sampleSell10 [sampleTrade4] [sampleTrade4]
      sampleBookAsk6 sampleBookAsk6 (by decide) (by decide) (by decide) (by decide)
      (by decide)).2.2.2.2⟩
